import Mathlib

/-!
Verification of the SQL guardrail validator (`sanitize_sql` in
`examples/json_sql_copilot.py`) and of the LangGraph refinement-loop agent
(`examples/json_sql_agent.py`) of the TextToSQL repository.

Query text is modelled as `List Char`.  Character classes follow the ASCII
behaviour of the Python regexes involved (`\s`, `\w`, `\d`); all concrete
query texts that occur in the repository and in this development are ASCII.
-/

/-- ASCII whitespace, as matched by Python's `\s` and stripped by `str.strip()`
on ASCII text: space, tab, newline, carriage return, vertical tab, form feed. -/
def isWs (c : Char) : Bool :=
  c = ' ' || c = '\t' || c = '\n' || c = '\r' || c = '\x0B' || c = '\x0C'

/-- ASCII word character, as matched by Python's `\w` / used by `\b`:
letters, digits, underscore. -/
def isWordChar (c : Char) : Bool :=
  c.isAlpha || c.isDigit || c = '_'

/-- The back-tick character stripped by `sql.strip("`")`. -/
def tickChar : Char := Char.ofNat 96

/-- Strip from the right all characters satisfying `p`
(Python `str.rstrip` with a fixed character class). -/
def rstripP (p : Char → Bool) : List Char → List Char
  | [] => []
  | c :: t =>
    match rstripP p t with
    | [] => if p c then [] else [c]
    | d :: r => c :: d :: r

/-- Python `s.strip()` on ASCII text. -/
def stripWsB (l : List Char) : List Char :=
  rstripP isWs (l.dropWhile isWs)

/-- Python `s.strip("`")`. -/
def stripTicksB (l : List Char) : List Char :=
  rstripP (fun c => c = tickChar) (l.dropWhile (fun c => c = tickChar))

/-- Case-insensitive pattern match at the head of a list: the pattern is given
in lower case, each text character is lowered before comparison.  Returns the
remainder of the text after the pattern on success. -/
def stripPrefCI : List Char → List Char → Option (List Char)
  | [], l => some l
  | _ :: _, [] => none
  | p :: ps, c :: cs => if c.toLower = p then stripPrefCI ps cs else none

/-- Python `s.lower().startswith(pat)` for a lower-case ASCII `pat`. -/
def startsWithCI (pat l : List Char) : Bool :=
  (stripPrefCI pat l).isSome

def sqlTok : List Char := "sql".toList

/-- Preprocessing step of `sanitize_sql`:
`sql = sql.strip().strip("`")` followed by
`if sql.lower().startswith("sql"): sql = sql[3:].lstrip(":").strip()`. -/
def preprocess (l : List Char) : List Char :=
  let s := stripTicksB (stripWsB l)
  if startsWithCI sqlTok s then
    stripWsB ((s.drop 3).dropWhile (fun c => c = ':'))
  else s

/-- Scanner implementing `re.search(r";\s*[^;\s]", sql) is not None`.
The flag records whether a semicolon has been seen; the regex matches iff
some semicolon is followed, after optional whitespace (equivalently, after
any mix of whitespace and further semicolons), by a character that is neither
whitespace nor a semicolon. -/
def multiAux : Bool → List Char → Bool
  | _, [] => false
  | seen, c :: rest =>
    if c = ';' then multiAux true rest
    else if isWs c then multiAux seen rest
    else if seen then true
    else multiAux false rest

/-- `MULTI_STMT_RE.search(sql)` succeeds. -/
def multiStmt (l : List Char) : Bool := multiAux false l

/-- Word boundary after a token: end of text, or a non-word character. -/
def tokenAfter : List Char → Bool
  | [] => true
  | c :: _ => !isWordChar c

/-- Case-insensitive token (pattern plus `\b`) at the head of the text. -/
def startsTok (tok l : List Char) : Bool :=
  match stripPrefCI tok l with
  | some r => tokenAfter r
  | none => false

def withTok : List Char := "with".toList
def selTok : List Char := "select".toList

/-- `SELECT_ONLY_RE.match(sql)` succeeds:
`^\s*(with\b|select\b)` with `re.IGNORECASE`. -/
def selectOnly : List Char → Bool
  | [] => false
  | c :: rest =>
    if isWs c then selectOnly rest
    else startsTok withTok (c :: rest) || startsTok selTok (c :: rest)

mutual

/-- `re.sub(r"\s+", " ", sql.lower())`: lower-case the text and collapse every
whitespace run to a single space. -/
def normWs : List Char → List Char
  | [] => []
  | c :: rest =>
    if isWs c then ' ' :: normSkip rest else c.toLower :: normWs rest

/-- State of `normWs` inside a whitespace run whose single space
has already been emitted. -/
def normSkip : List Char → List Char
  | [] => []
  | c :: rest =>
    if isWs c then normSkip rest else c.toLower :: normWs rest

end

def isPrefOf : List Char → List Char → Bool
  | [], _ => true
  | _ :: _, [] => false
  | p :: ps, c :: cs => p = c && isPrefOf ps cs

/-- Python `pat in s` (substring containment). -/
def containsSeq (pat : List Char) : List Char → Bool
  | [] => isPrefOf pat []
  | c :: t => isPrefOf pat (c :: t) || containsSeq pat t

/-- Last character after `rstrip()`, i.e. the last non-whitespace character. -/
def lastNonWs (l : List Char) : Option Char :=
  (l.reverse.dropWhile isWs).head?

/-- `has_limit = " limit " in lowered and not lowered.rstrip().endswith(")")`
where `lowered = re.sub(r"\s+", " ", sql.lower())`. -/
def hasLimit (l : List Char) : Bool :=
  let low := normWs l
  containsSeq " limit ".toList low && !(lastNonWs low = some ')' : Bool)

/-- ASCII digit character for a digit value. -/
def digitChar : Nat → Char
  | 0 => '0'
  | 1 => '1'
  | 2 => '2'
  | 3 => '3'
  | 4 => '4'
  | 5 => '5'
  | 6 => '6'
  | 7 => '7'
  | 8 => '8'
  | _ => '9'

/-- Decimal digits of a natural number, most significant first
(the text Python interpolates for `{default_limit}` / `{hard_max_rows}`). -/
def natToDigitsAux : Nat → Nat → List Char → List Char
  | 0, _, acc => acc
  | f + 1, n, acc =>
    let d := digitChar (n % 10)
    if n / 10 = 0 then d :: acc else natToDigitsAux f (n / 10) (d :: acc)

def natToDigits (n : Nat) : List Char := natToDigitsAux (n + 1) n []

/-- Numeric value of a digit string, as computed by Python `int`. -/
def digitsVal (l : List Char) : Nat :=
  l.foldl (fun a c => a * 10 + (c.toNat - 48)) 0

def limitTok : List Char := "limit".toList

/-- Attempt to match `\blimit\s+(\d+)\b` (case-insensitive) at the head of the
text; the `\b` before `limit` is the caller's responsibility.  On success
returns the captured value and the remainder of the text after the match. -/
def limitAt (l : List Char) : Option (Nat × List Char) :=
  match stripPrefCI limitTok l with
  | none => none
  | some r1 =>
    match r1.takeWhile isWs with
    | [] => none
    | _ :: _ =>
      let r2 := r1.dropWhile isWs
      match r2.takeWhile Char.isDigit with
      | [] => none
      | d =>
        let r3 := r2.dropWhile Char.isDigit
        match r3 with
        | [] => some (digitsVal d, [])
        | c :: _ => if isWordChar c then none else some (digitsVal d, r3)

/-- The `\s+(\d+)\b` tail of `limitAt`, on the text after the token. -/
def limitTail (r1 : List Char) : Option (Nat × List Char) :=
  match r1.takeWhile isWs with
  | [] => none
  | _ :: _ =>
    let r2 := r1.dropWhile isWs
    match r2.takeWhile Char.isDigit with
    | [] => none
    | d =>
      let r3 := r2.dropWhile Char.isDigit
      match r3 with
      | [] => some (digitsVal d, [])
      | c :: _ => if isWordChar c then none else some (digitsVal d, r3)

/-- `re.search(r"\blimit\s+(\d+)\b", sql, re.IGNORECASE)`: value of the
leftmost match.  The flag tracks whether the previous character was a word
character (for `\b`); the initial call uses `false` (start of text). -/
def findLimitW : Bool → List Char → Option Nat
  | _, [] => none
  | b, c :: rest =>
    if b then findLimitW (isWordChar c) rest
    else
      match limitAt (c :: rest) with
      | some (n, _) => some n
      | none => findLimitW (isWordChar c) rest

/-- Does some position of the text carry a `\blimit\s+(\d+)\b` match whose
value exceeds `h`?  Used to state the spec's "every row-limiting clause". -/
def existsClauseGT (h : Nat) : Bool → List Char → Bool
  | _, [] => false
  | b, c :: rest =>
    (if b then false
     else
       match limitAt (c :: rest) with
       | some (n, _) => decide (n > h)
       | none => false) ||
    existsClauseGT h (isWordChar c) rest

/-- Replacement text `LIMIT <h>`. -/
def limitBlock (h : Nat) : List Char :=
  "LIMIT ".toList ++ natToDigits h

/-- Fuelled scanner implementing
`re.sub(r"\blimit\s+\d+\b", f"LIMIT {h}", sql, flags=re.IGNORECASE)`:
leftmost, non-overlapping matches are each replaced by `LIMIT <h>`.
One unit of fuel is spent per input character, so `l.length` fuel suffices. -/
def clampF (h : Nat) : Nat → Bool → List Char → List Char
  | 0, _, l => l
  | _ + 1, _, [] => []
  | f + 1, b, c :: rest =>
    if b then c :: clampF h f (isWordChar c) rest
    else
      match limitAt (c :: rest) with
      | some (_, r) => limitBlock h ++ clampF h f true r
      | none => c :: clampF h f (isWordChar c) rest

def clampAll (h : Nat) (l : List Char) : List Char :=
  clampF h l.length false l

def multiMsg : List Char :=
  "Multiple statements detected; a single SELECT/CTE statement is required.".toList

def selectMsg : List Char := "Only SELECT/CTE queries are allowed.".toList

def addedMsg (d : Nat) : List Char :=
  "LIMIT ".toList ++ natToDigits d ++ " added.".toList

def clampMsg (h : Nat) : List Char :=
  "LIMIT clamped to ".toList ++ natToDigits h ++ ".".toList

/-- `sql = f"{sql.rstrip().rstrip(';')} LIMIT {default_limit}"`. -/
def appendLimit (s : List Char) (d : Nat) : List Char :=
  rstripP (fun c => c = ';') (rstripP isWs s) ++ " LIMIT ".toList ++ natToDigits d

/-- Shallow embedding of `sanitize_sql(sql, allow_non_select, default_limit,
hard_max_rows)`.  `Except.error` models the two `raise ValueError` paths. -/
def sanitizeSql (sql : List Char) (allowNonSelect : Bool)
    (defaultLimit hardMaxRows : Nat) :
    Except (List Char) (List Char × List (List Char)) :=
  let s := preprocess sql
  if multiStmt s then .error multiMsg
  else if !allowNonSelect && !selectOnly s then .error selectMsg
  else
    let hasL := hasLimit s
    let s1 := if hasL then s else appendLimit s defaultLimit
    let w1 : List (List Char) := if hasL then [] else [addedMsg defaultLimit]
    match findLimitW false s1 with
    | some n =>
      if n > hardMaxRows then .ok (clampAll hardMaxRows s1, w1 ++ [clampMsg hardMaxRows])
      else .ok (s1, w1)
    | none => .ok (s1, w1)

instance exceptDecEq {ε α : Type} [DecidableEq ε] [DecidableEq α] :
    DecidableEq (Except ε α)
  | .error e, .error e' =>
    if h : e = e' then .isTrue (by rw [h])
    else .isFalse (by intro hc; injection hc; exact h (by assumption))
  | .error _, .ok _ => .isFalse (by intro hc; exact Except.noConfusion hc)
  | .ok _, .error _ => .isFalse (by intro hc; exact Except.noConfusion hc)
  | .ok a, .ok a' =>
    if h : a = a' then .isTrue (by rw [h])
    else .isFalse (by intro hc; injection hc; exact h (by assumption))

/-!
Embedding of the LangGraph agent (`examples/json_sql_agent.py`).

The LLM is an external collaborator: `genA` maps the generation prompt to the
candidate text obtained after the node's extraction step, `verdictA` maps the
verdict prompt to the evaluation text, and `execA` maps sanitized query text
to either a result set or an execution failure message.  Theorems quantify
over these adapters.

The prompt templates (`prompts`/`agent` sections of `form.json`) are runtime
configuration, not code under `src`.  Modelled from the spec: the refinement
template mentions the previous query, the row count it produced, the
Reviewer's feedback and an abbreviated schema hint; the fallback message
names the exhausted budget; the verdict prompt mentions the request, the
executed query, the row count and a bounded preview of the first rows.
Each template is therefore a list of literal segments surrounding the
`str.format` slots, and formatting is concatenation. -/

structure ExecRes where
  cols : List (List Char)
  rows : List (List (List Char))
deriving DecidableEq

structure AgentCfg where
  maxTurns : Nat
  allowNonSelect : Bool
  defaultLimit : Nat
  hardMaxRows : Nat
  /-- `fallback_message` template around its `{max_turns}` slot. -/
  fb0 : List Char
  fb1 : List Char
  /-- turn-0 user prompt, already fully built from the form. -/
  prompt0 : List Char
  /-- `refinement_template` literal segments around the `{previous_sql}`,
  `{row_count}`, `{feedback}` and `{schema_hint}` slots. -/
  rt0 : List Char
  rt1 : List Char
  rt2 : List Char
  rt3 : List Char
  schemaHint : List Char
  /-- `exit_node.user_template` literal segments around the `{user_request}`,
  `{sql}`, `{row_count}` and `{data_preview}` slots. -/
  vt0 : List Char
  vt1 : List Char
  vt2 : List Char
  vt3 : List Char
  vt4 : List Char
deriving DecidableEq

inductive HistE
  | gen (turn : Nat) (sql : List Char)
  | execOk (turn rowCount : Nat)
  | execErr (turn : Nat) (err : List Char)
  | rev (turn : Nat) (decision : List Char) (note : List Char)
deriving DecidableEq

/-- The `AgentState` TypedDict.  `resultsDf` is `None` or the row list of the
data frame; wall-clock timing fields are environmental and omitted. -/
structure AgentSt where
  userRequest : List Char
  turn : Nat
  maxTurns : Nat
  sql : Option (List Char)
  sqlFinal : Option (List Char)
  previousSql : Option (List Char)
  resultsDf : Option (List (List (List Char)))
  rowCount : Nat
  columns : List (List Char)
  error : Option (List Char)
  decision : List Char
  feedback : Option (List Char)
  history : List HistE
deriving DecidableEq

/-- Python `str(x)` for an optional string (`str(None) = "None"`),
as applied by `str.format` to the template slots. -/
def pyStr : Option (List Char) → List Char
  | none => "None".toList
  | some s => s

/-- Python truthiness of an optional string (`if state["error"]:`). -/
def pyTruthy : Option (List Char) → Bool
  | none => false
  | some s => !s.isEmpty

/-- `evaluation.upper().startswith("GOOD")`. -/
def startsGood (l : List Char) : Bool :=
  isPrefOf "GOOD".toList (l.map Char.toUpper)

def exitD : List Char := "EXIT".toList
def refineD : List Char := "REFINE".toList

/-- `agent_config["fallback_message"].format(max_turns=max_turns)`. -/
def fallbackMsg (cfg : AgentCfg) : List Char :=
  cfg.fb0 ++ natToDigits cfg.maxTurns ++ cfg.fb1

/-- User prompt built by `generate_sql_node`: the configured turn-0 prompt at
`turn == 0`, otherwise the refinement template formatted with
`previous_sql=state["previous_sql"]`, `row_count=state["row_count"]`,
`feedback=state["feedback"]` and the abbreviated schema hint. -/
def genPrompt (cfg : AgentCfg) (st : AgentSt) : List Char :=
  if st.turn = 0 then cfg.prompt0
  else
    cfg.rt0 ++ pyStr st.previousSql ++ cfg.rt1 ++ natToDigits st.rowCount ++
      cfg.rt2 ++ pyStr st.feedback ++ cfg.rt3 ++ cfg.schemaHint

/-- `generate_sql_node`: produce a candidate, save the current `sql` as
`previous_sql`, advance the turn counter, append a history record.
`genA` covers the LLM call together with the node's code-fence extraction. -/
def generateNode (cfg : AgentCfg) (genA : List Char → List Char)
    (st : AgentSt) : AgentSt :=
  let sqlRaw := genA (genPrompt cfg st)
  { st with
    sql := some sqlRaw
    previousSql := st.sql
    turn := st.turn + 1
    history := st.history ++ [HistE.gen (st.turn + 1) sqlRaw] }

/-- `execute_sql_node`: run the guardrail validator, then (only on success)
the execution adapter. -/
def executeNode (cfg : AgentCfg) (execA : List Char → Except (List Char) ExecRes)
    (st : AgentSt) : AgentSt :=
  let sqlRaw := (st.sql).getD []
  match sanitizeSql sqlRaw cfg.allowNonSelect cfg.defaultLimit cfg.hardMaxRows with
  | .error e =>
    { st with
      sqlFinal := st.sql
      resultsDf := none
      rowCount := 0
      columns := []
      error := some ("SQL sanitization failed: ".toList ++ e)
      history := st.history ++ [HistE.execErr st.turn e] }
  | .ok (sqlFin, _) =>
    match execA sqlFin with
    | .ok r =>
      { st with
        sqlFinal := some sqlFin
        resultsDf := some r.rows
        rowCount := r.rows.length
        columns := r.cols
        error := none
        history := st.history ++ [HistE.execOk st.turn r.rows.length] }
    | .error m =>
      { st with
        sqlFinal := some sqlFin
        resultsDf := none
        rowCount := 0
        columns := []
        error := some m
        history := st.history ++ [HistE.execErr st.turn m] }

/-- `df.head(5).to_string()` preview, or `"EMPTY"`; the exact rendering of a
non-empty frame is irrelevant to every claim, rows are joined verbatim. -/
def dataPreview (st : AgentSt) : List Char :=
  match st.resultsDf with
  | none => "EMPTY".toList
  | some rows =>
    if rows.length = 0 then "EMPTY".toList
    else ((rows.take 5).map (fun r => r.foldl (· ++ ·) [])).foldl (· ++ ·) []

/-- Verdict prompt built by `review_node` from `exit_node.user_template`. -/
def verdictPrompt (cfg : AgentCfg) (st : AgentSt) : List Char :=
  cfg.vt0 ++ st.userRequest ++ cfg.vt1 ++ pyStr st.sqlFinal ++ cfg.vt2 ++
    natToDigits st.rowCount ++ cfg.vt3 ++ dataPreview st ++ cfg.vt4

/-- `review_node`: budget check, then execution-error check, then the
LLM verdict. -/
def reviewNode (cfg : AgentCfg) (verdictA : List Char → List Char)
    (st : AgentSt) : AgentSt :=
  if cfg.maxTurns ≤ st.turn then
    { st with
      decision := exitD
      feedback := some (fallbackMsg cfg)
      history := st.history ++ [HistE.rev st.turn exitD "max_turns_reached".toList] }
  else if pyTruthy st.error then
    { st with
      decision := refineD
      feedback := some ("REFINE: SQL execution failed with error: ".toList ++
        (st.error).getD [])
      history := st.history ++ [HistE.rev st.turn refineD "sql_error".toList] }
  else
    let ev := verdictA (verdictPrompt cfg st)
    if startsGood ev then
      { st with
        decision := exitD
        feedback := none
        history := st.history ++ [HistE.rev st.turn exitD ev] }
    else
      { st with
        decision := refineD
        feedback := some ev
        history := st.history ++ [HistE.rev st.turn refineD ev] }

/-- One generate/execute/review cycle of the compiled graph. -/
def agentTurn (cfg : AgentCfg) (genA : List Char → List Char)
    (execA : List Char → Except (List Char) ExecRes)
    (verdictA : List Char → List Char) (st : AgentSt) : AgentSt :=
  reviewNode cfg verdictA (executeNode cfg execA (generateNode cfg genA st))

/-- The compiled graph: entry point `generate`, edges
`generate → execute → review`, conditional edge looping on `REFINE` and
stopping on `EXIT`.  `fuel` bounds the number of cycles the model unrolls;
the termination theorems show `cfg.maxTurns` fuel is always enough. -/
def runLoop (cfg : AgentCfg) (genA : List Char → List Char)
    (execA : List Char → Except (List Char) ExecRes)
    (verdictA : List Char → List Char) : Nat → AgentSt → AgentSt
  | 0, st => st
  | fuel + 1, st =>
    let st3 := agentTurn cfg genA execA verdictA st
    if st3.decision = exitD then st3
    else runLoop cfg genA execA verdictA fuel st3

/-- `initial_state` of `run_agent`. -/
def initState (cfg : AgentCfg) (userRequest : List Char) : AgentSt :=
  { userRequest := userRequest
    turn := 0
    maxTurns := cfg.maxTurns
    sql := none
    sqlFinal := none
    previousSql := none
    resultsDf := none
    rowCount := 0
    columns := []
    error := none
    decision := []
    feedback := none
    history := [] }

/-- Final report assembled by `run_agent` (wall-clock timing omitted). -/
structure Report where
  userRequest : List Char
  sqlGenerated : Option (List Char)
  sqlExecuted : Option (List Char)
  columns : List (List Char)
  rowCount : Nat
  rows : List (List (List Char))
  turnsTaken : Nat
  error : Option (List Char)
  feedback : Option (List Char)
  history : List HistE
deriving DecidableEq

def buildReport (cfg : AgentCfg) (st : AgentSt) : Report :=
  { userRequest := st.userRequest
    sqlGenerated := st.sql
    sqlExecuted := st.sqlFinal
    columns := st.columns
    rowCount := st.rowCount
    rows := match st.resultsDf with
      | some df => df.take cfg.hardMaxRows
      | none => []
    turnsTaken := st.turn
    error := st.error
    feedback := st.feedback
    history := st.history }

/-! ### Concrete fixtures used by witnesses and counterexamples -/

def cfgA : AgentCfg :=
  { maxTurns := 3, allowNonSelect := false, defaultLimit := 100,
    hardMaxRows := 1000, fb0 := "Budget of ".toList,
    fb1 := " turns exhausted.".toList, prompt0 := "P0".toList,
    rt0 := "PREV:".toList, rt1 := "|ROWS:".toList, rt2 := "|FB:".toList,
    rt3 := "|SCHEMA:".toList, schemaHint := "S".toList,
    vt0 := "REQ:".toList, vt1 := "|SQL:".toList, vt2 := "|ROWS:".toList,
    vt3 := "|DATA:".toList, vt4 := [] }

def cfgZero : AgentCfg := { cfgA with maxTurns := 0 }

def cfgTwo : AgentCfg := { cfgA with maxTurns := 2 }

def genConst : List Char → List Char := fun _ => "SELECT * FROM t".toList

def execOne : List Char → Except (List Char) ExecRes :=
  fun _ => .ok { cols := ["c".toList], rows := [["r".toList]] }

def execFail : List Char → Except (List Char) ExecRes :=
  fun _ => .error "boom".toList

def verdictBad : List Char → List Char := fun _ => "BAD: wrong".toList

/-- The pattern `" limit "` searched by `has_limit` in the normalised text. -/
def limPat : List Char := " limit ".toList

/-- Character of `limPat` at a given index (`' '` beyond the end). -/
def patAt : Nat → Char
  | 0 => ' '
  | 1 => 'l'
  | 2 => 'i'
  | 3 => 'm'
  | 4 => 'i'
  | 5 => 't'
  | _ => ' '

/-- Substring-search automaton for `limPat` (states `0`–`7`, state `7`
accepting and absorbing): the state is the length of the longest suffix of
the scanned text that is a prefix of the pattern, capped once a full
occurrence has been seen.  The pattern has no self-overlap apart from its
single leading space, so a mismatch falls back to state `1` on a space and
to state `0` otherwise. -/
def limDfa (q : Nat) (c : Char) : Nat :=
  if q = 7 then 7
  else if c = patAt q then q + 1
  else if c = ' ' then 1
  else 0

/-- First `q` characters of `limPat`. -/
def limPref (q : Nat) : List Char := limPat.take q

/-- Run of the automaton over the whitespace-collapsed, lower-cased view of a
raw text, fused with the `normWs`/`normSkip` state (`true` inside a
whitespace run whose single space has already been emitted); returns the
final pair of states. -/
def nrmRun : Bool → Nat → List Char → Bool × Nat
  | sk, q, [] => (sk, q)
  | sk, q, c :: rest =>
    if isWs c then
      if sk then nrmRun true q rest else nrmRun true (limDfa q ' ') rest
    else nrmRun false (limDfa q c.toLower) rest

def stRejected : AgentSt :=
  { initState cfgA [] with sql := some "DELETE FROM t".toList }

example : natToDigits 100 = "100".toList := by decide

example :
    sanitizeSql "SELECT * FROM t".toList false 100 1000 =
      .ok ("SELECT * FROM t LIMIT 100".toList, ["LIMIT 100 added.".toList]) := by
  decide

example :
    sanitizeSql "SELECT * FROM t LIMIT 5000".toList false 100 1000 =
      .ok ("SELECT * FROM t LIMIT 1000".toList, ["LIMIT clamped to 1000.".toList]) := by
  decide

example :
    sanitizeSql "SELECT 1; DROP TABLE x".toList false 100 1000 = .error multiMsg := by
  decide

example :
    sanitizeSql "UPDATE t SET a = 1".toList false 100 1000 = .error selectMsg := by
  decide

/-! ### Character-class lemmas -/

theorem isWs_cases {c : Char} (h : isWs c = true) :
    c = ' ' ∨ c = '\t' ∨ c = '\n' ∨ c = '\r' ∨ c = '\x0B' ∨ c = '\x0C' := by
  simp [isWs] at h; tauto

theorem char_toLower_def (c : Char) :
    c.toLower = if c.toNat ≥ 65 ∧ c.toNat ≤ 90 then Char.ofNat (c.toNat + 32) else c := rfl

theorem wordChar_of_upperRange {c : Char} (h1 : 65 ≤ c.toNat) (h2 : c.toNat ≤ 90) :
    isWordChar c = true := by
  have hu : c.isUpper = true := by
    simp only [Char.isUpper, Bool.and_eq_true, decide_eq_true_eq]
    constructor
    · show (65 : UInt32) ≤ c.val
      rw [UInt32.le_def, BitVec.le_def]
      simpa [Char.toNat, UInt32.toNat] using h1
    · show c.val ≤ (90 : UInt32)
      rw [UInt32.le_def, BitVec.le_def]
      simpa [Char.toNat, UInt32.toNat] using h2
  simp [isWordChar, Char.isAlpha, hu]

theorem toLower_wordChar {c : Char} (h : isWordChar c.toLower = true) :
    isWordChar c = true := by
  rw [char_toLower_def] at h
  split at h
  · next hr => exact wordChar_of_upperRange hr.1 hr.2
  · exact h

theorem ws_not_word {c : Char} (h : isWs c = true) : isWordChar c = false := by
  rcases isWs_cases h with rfl | rfl | rfl | rfl | rfl | rfl <;> decide

theorem ws_toLower {c : Char} (h : isWs c = true) : c.toLower = c := by
  rcases isWs_cases h with rfl | rfl | rfl | rfl | rfl | rfl <;> decide

/-! ### Digit lemmas -/

theorem isDigit_toNat {c : Char} (h : c.isDigit = true) :
    48 ≤ c.toNat ∧ c.toNat ≤ 57 := by
  simp only [Char.isDigit, Bool.and_eq_true, decide_eq_true_eq] at h
  obtain ⟨h1, h2⟩ := h
  constructor
  · have := UInt32.le_def.mp h1
    simpa [Char.toNat, UInt32.toNat, BitVec.le_def] using this
  · have := UInt32.le_def.mp h2
    simpa [Char.toNat, UInt32.toNat, BitVec.le_def] using this

theorem digitChar_isDigit (k : Nat) : (digitChar k).isDigit = true := by
  rcases Nat.lt_or_ge k 9 with h | h
  · interval_cases k <;> decide
  · obtain ⟨m, rfl⟩ : ∃ m, k = m + 9 :=
      ⟨k - 9, by omega⟩
    rfl

theorem digitChar_val {k : Nat} (h : k < 10) : (digitChar k).toNat - 48 = k := by
  interval_cases k <;> decide

theorem digit_not_ws {c : Char} (h : c.isDigit = true) : isWs c = false := by
  cases hw : isWs c
  · rfl
  · rcases isWs_cases hw with rfl | rfl | rfl | rfl | rfl | rfl <;> exact absurd h (by decide)

theorem digit_word {c : Char} (h : c.isDigit = true) : isWordChar c = true := by
  simp [isWordChar, h]

theorem digit_toLower {c : Char} (h : c.isDigit = true) : c.toLower = c := by
  rw [char_toLower_def, if_neg]
  rintro ⟨h1, _⟩
  have := (isDigit_toNat h).2
  omega

theorem digit_ne_semi {c : Char} (h : c.isDigit = true) : c ≠ ';' := by
  rintro rfl; exact absurd h (by decide)

theorem digit_ne_rparen {c : Char} (h : c.isDigit = true) : c ≠ ')' := by
  rintro rfl; exact absurd h (by decide)

theorem natToDigitsAux_append :
    ∀ (f n : Nat) (acc : List Char),
      natToDigitsAux f n acc = natToDigitsAux f n [] ++ acc := by
  intro f
  induction f with
  | zero => intro n acc; rfl
  | succ g ih =>
    intro n acc
    show natToDigitsAux (g + 1) n acc = natToDigitsAux (g + 1) n [] ++ acc
    rw [natToDigitsAux, natToDigitsAux]
    by_cases h : n / 10 = 0
    · simp [h]
    · simp only [if_neg h]
      rw [ih (n / 10) (digitChar (n % 10) :: acc), ih (n / 10) [digitChar (n % 10)]]
      simp

theorem natToDigitsAux_fuel :
    ∀ (f f' n : Nat) (acc : List Char), n < 10 ^ f → n < 10 ^ f' →
      1 ≤ f → 1 ≤ f' → natToDigitsAux f n acc = natToDigitsAux f' n acc := by
  intro f
  induction f with
  | zero => intro f' n acc _ _ hf _; omega
  | succ g ih =>
    intro f' n acc hb hb' _ hf'
    obtain ⟨g', rfl⟩ : ∃ g', f' = g' + 1 := ⟨f' - 1, by omega⟩
    rw [natToDigitsAux, natToDigitsAux]
    by_cases h : n / 10 = 0
    · simp [h]
    · simp only [if_neg h]
      have h10 : 10 ≤ n := by
        rcases Nat.lt_or_ge n 10 with hn | hn
        · exact absurd (Nat.div_eq_of_lt hn) h
        · exact hn
      have hg : 1 ≤ g := by
        by_contra hc
        have : g = 0 := by omega
        subst this
        simp [pow_succ] at hb
        omega
      have hg' : 1 ≤ g' := by
        by_contra hc
        have : g' = 0 := by omega
        subst this
        simp [pow_succ] at hb'
        omega
      apply ih
      · exact Nat.div_lt_of_lt_mul (by rw [pow_succ] at hb; omega)
      · exact Nat.div_lt_of_lt_mul (by rw [pow_succ] at hb'; omega)
      · exact hg
      · exact hg'

theorem lt_ten_pow_self (n : Nat) : n < 10 ^ n := by
  calc n < 2 ^ n := Nat.lt_two_pow n
  _ ≤ 10 ^ n := Nat.pow_le_pow_left (by omega) n

theorem natToDigits_step {n : Nat} (h : 10 ≤ n) :
    natToDigits n = natToDigits (n / 10) ++ [digitChar (n % 10)] := by
  have hd : n / 10 ≠ 0 := by
    intro hc
    have := Nat.div_eq_of_lt (show n < 10 by omega)
    omega
  show natToDigitsAux (n + 1) n [] = _
  rw [natToDigitsAux]
  simp only [if_neg hd]
  rw [natToDigitsAux_append n (n / 10) [digitChar (n % 10)]]
  congr 1
  show natToDigitsAux n (n / 10) [] = natToDigitsAux (n / 10 + 1) (n / 10) []
  apply natToDigitsAux_fuel
  · calc n / 10 ≤ n := Nat.div_le_self n 10
    _ < 10 ^ n := lt_ten_pow_self n
  · exact lt_ten_pow_self (n / 10) |>.trans_le
      (Nat.pow_le_pow_right (by omega) (by omega))
  · omega
  · omega

theorem digitsVal_append_one (a : List Char) (c : Char) :
    digitsVal (a ++ [c]) = digitsVal a * 10 + (c.toNat - 48) := by
  simp [digitsVal, List.foldl_append]

theorem digitsVal_natToDigits (n : Nat) : digitsVal (natToDigits n) = n := by
  induction n using Nat.strong_induction_on with
  | _ n ih =>
    rcases Nat.lt_or_ge n 10 with h | h
    · have hd : n / 10 = 0 := Nat.div_eq_of_lt h
      have hm : n % 10 = n := Nat.mod_eq_of_lt h
      show digitsVal (natToDigitsAux (n + 1) n []) = n
      rw [natToDigitsAux]
      simp only [if_pos hd, hm]
      show digitsVal [digitChar n] = n
      have := digitChar_val h
      simp [digitsVal, this]
    · rw [natToDigits_step h, digitsVal_append_one,
        ih (n / 10) (Nat.div_lt_self (by omega) (by omega)),
        digitChar_val (Nat.mod_lt n (by omega))]
      omega

theorem natToDigitsAux_all_digit :
    ∀ (f n : Nat) (acc : List Char), (∀ x ∈ acc, x.isDigit = true) →
      ∀ x ∈ natToDigitsAux f n acc, x.isDigit = true := by
  intro f
  induction f with
  | zero => intro n acc hacc; exact hacc
  | succ g ih =>
    intro n acc hacc x hx
    rw [natToDigitsAux] at hx
    by_cases h : n / 10 = 0
    · simp only [if_pos h] at hx
      rcases List.mem_cons.mp hx with rfl | hx
      · exact digitChar_isDigit _
      · exact hacc _ hx
    · simp only [if_neg h] at hx
      refine ih (n / 10) _ ?_ x hx
      intro y hy
      rcases List.mem_cons.mp hy with rfl | hy
      · exact digitChar_isDigit _
      · exact hacc _ hy

theorem natToDigits_all_digit (n : Nat) :
    ∀ x ∈ natToDigits n, x.isDigit = true :=
  natToDigitsAux_all_digit (n + 1) n [] (by simp)

theorem natToDigitsAux_head :
    ∀ (f n : Nat) (acc : List Char), 1 ≤ f →
      ∃ c r, natToDigitsAux f n acc = c :: r ∧ c.isDigit = true := by
  intro f
  induction f with
  | zero => intro n acc h; omega
  | succ g ih =>
    intro n acc _
    rw [natToDigitsAux]
    by_cases h : n / 10 = 0
    · exact ⟨digitChar (n % 10), acc, by simp [h], digitChar_isDigit _⟩
    · simp only [if_neg h]
      rcases Nat.lt_or_ge g 1 with hg | hg
      · have : g = 0 := by omega
        subst this
        exact ⟨digitChar (n % 10), acc, rfl, digitChar_isDigit _⟩
      · exact ih (n / 10) _ hg

theorem natToDigits_head (n : Nat) :
    ∃ c r, natToDigits n = c :: r ∧ c.isDigit = true :=
  natToDigitsAux_head (n + 1) n [] (by omega)

/-! ### Structure of successful sanitize runs -/

theorem sanitizeSql_ok_inv {x : List Char} {a : Bool} {d h : Nat}
    {t : List Char} {w : List (List Char)}
    (hok : sanitizeSql x a d h = .ok (t, w)) :
    multiStmt (preprocess x) = false ∧
    (!a && !selectOnly (preprocess x)) = false ∧
    ((hasLimit (preprocess x) = true ∧
       ((∃ n, findLimitW false (preprocess x) = some n ∧ h < n ∧
          t = clampAll h (preprocess x) ∧ w = [clampMsg h]) ∨
        ((∀ n, findLimitW false (preprocess x) = some n → n ≤ h) ∧
          t = preprocess x ∧ w = []))) ∨
     (hasLimit (preprocess x) = false ∧
       ((∃ n, findLimitW false (appendLimit (preprocess x) d) = some n ∧ h < n ∧
          t = clampAll h (appendLimit (preprocess x) d) ∧
          w = [addedMsg d, clampMsg h]) ∨
        ((∀ n, findLimitW false (appendLimit (preprocess x) d) = some n → n ≤ h) ∧
          t = appendLimit (preprocess x) d ∧ w = [addedMsg d])))) := by
  have hm : multiStmt (preprocess x) = false := by
    by_contra hc
    simp only [Bool.not_eq_false] at hc
    simp [sanitizeSql, hc] at hok
  have hs : (!a && !selectOnly (preprocess x)) = false := by
    by_contra hc
    simp only [Bool.not_eq_false] at hc
    simp [sanitizeSql, hm, hc] at hok
  refine ⟨hm, hs, ?_⟩
  by_cases hl : hasLimit (preprocess x)
  · left
    refine ⟨hl, ?_⟩
    rcases hfl : findLimitW false (preprocess x) with _ | n
    · simp [sanitizeSql, hm, hs, hl, hfl] at hok
      exact Or.inr ⟨by simp [hfl], hok.1.symm, hok.2⟩
    · by_cases hn : h < n
      · simp [sanitizeSql, hm, hs, hl, hfl, hn] at hok
        exact Or.inl ⟨n, rfl, hn, hok.1.symm, hok.2.symm⟩
      · simp [sanitizeSql, hm, hs, hl, hfl, hn] at hok
        refine Or.inr ⟨fun m hm2 => ?_, hok.1.symm, hok.2⟩
        injection hm2 with hnm
        omega
  · right
    simp only [Bool.not_eq_true] at hl
    refine ⟨hl, ?_⟩
    rcases hfl : findLimitW false (appendLimit (preprocess x) d) with _ | n
    · simp [sanitizeSql, hm, hs, hl, hfl] at hok
      exact Or.inr ⟨by simp [hfl], hok.1.symm, hok.2.symm⟩
    · by_cases hn : h < n
      · simp [sanitizeSql, hm, hs, hl, hfl, hn] at hok
        exact Or.inl ⟨n, rfl, hn, hok.1.symm, hok.2.symm⟩
      · simp [sanitizeSql, hm, hs, hl, hfl, hn] at hok
        refine Or.inr ⟨fun m hm2 => ?_, hok.1.symm, hok.2.symm⟩
        injection hm2 with hnm
        omega

/-! ### Claim C2 -/

/-- Claim C2: after the preprocessing trim, `sanitize_sql` fails in exactly
two cases, checked in this order: it raises the multi-statement error when
the text contains a semicolon followed by a non-whitespace, non-semicolon
character, and, when `allow_non_select` is false, it raises the non-select
error when the text does not begin with the token `WITH` or `SELECT`
(case-insensitively, leading whitespace ignored); on every other input it
returns a sanitized query without failing. -/
theorem claim_C2_failure_cases (x : List Char) (a : Bool) (d h : Nat) :
    (multiStmt (preprocess x) = true →
      sanitizeSql x a d h = .error multiMsg) ∧
    (multiStmt (preprocess x) = false → a = false →
      selectOnly (preprocess x) = false →
      sanitizeSql x a d h = .error selectMsg) ∧
    (multiStmt (preprocess x) = false →
      (a = true ∨ selectOnly (preprocess x) = true) →
      ∃ t w, sanitizeSql x a d h = .ok (t, w)) := by
  refine ⟨?_, ?_, ?_⟩
  · intro hm
    simp [sanitizeSql, hm]
  · intro hm ha hs
    subst ha
    simp [sanitizeSql, hm, hs]
  · intro hm hsel
    have hcond : (!a && !selectOnly (preprocess x)) = false := by
      rcases hsel with rfl | h1
      · simp
      · simp [h1]
    by_cases hl : hasLimit (preprocess x)
    · rcases hfl : findLimitW false (preprocess x) with _ | n
      · exact ⟨preprocess x, [], by simp [sanitizeSql, hm, hcond, hl, hfl]⟩
      · by_cases hn : h < n
        · exact ⟨clampAll h (preprocess x), [clampMsg h],
            by simp [sanitizeSql, hm, hcond, hl, hfl, hn]⟩
        · exact ⟨preprocess x, [],
            by simp [sanitizeSql, hm, hcond, hl, hfl, hn]⟩
    · rcases hfl : findLimitW false (appendLimit (preprocess x) d) with _ | n
      · exact ⟨appendLimit (preprocess x) d, [addedMsg d],
          by simp [sanitizeSql, hm, hcond, hl, hfl]⟩
      · by_cases hn : h < n
        · exact ⟨clampAll h (appendLimit (preprocess x) d), [addedMsg d, clampMsg h],
            by simp [sanitizeSql, hm, hcond, hl, hfl, hn]⟩
        · exact ⟨appendLimit (preprocess x) d, [addedMsg d],
            by simp [sanitizeSql, hm, hcond, hl, hfl, hn]⟩

/-- Witness for C2: a complete statement followed by `; DROP TABLE x` is
rejected as multi-statement, an `UPDATE` is rejected as non-select under
`allow_non_select = false`, and a plain `SELECT` succeeds. -/
theorem claim_C2_witness :
    sanitizeSql "SELECT 1; DROP TABLE x".toList false 100 1000 = .error multiMsg ∧
    sanitizeSql "UPDATE t SET a = 1".toList false 100 1000 = .error selectMsg ∧
    ∃ t w, sanitizeSql "SELECT 2".toList false 100 1000 = .ok (t, w) :=
  ⟨(claim_C2_failure_cases "SELECT 1; DROP TABLE x".toList false 100 1000).1 (by decide),
   (claim_C2_failure_cases "UPDATE t SET a = 1".toList false 100 1000).2.1
     (by decide) rfl (by decide),
   (claim_C2_failure_cases "SELECT 2".toList false 100 1000).2.2
     (by decide) (Or.inr (by decide))⟩

/-! ### Claim C9 -/

/-- Claim C9 counterexample: on `"sqlite"` the preprocessing step strips the
leading `sql` although it is followed by `i` (neither `:` nor end of text),
so the text is not left unchanged; and two layers of back-tick fencing around
`"x"` are both removed, not a single one. -/
theorem claim_C9_counterexample :
    preprocess "sqlite".toList = "ite".toList ∧
    preprocess "``x``".toList = "x".toList := by
  exact ⟨by decide, by decide⟩

/-- Claim C9 (amended): the preprocessing step trims surrounding whitespace
and then all surrounding back-tick characters, and strips a leading token
`sql` (case-insensitive) whenever the trimmed text begins with it, regardless
of the following character, afterwards removing leading colons and
surrounding whitespace; when the trimmed text does not begin with `sql`,
it is returned unchanged. -/
theorem claim_C9_amended (x : List Char) :
    (∀ (c1 c2 c3 : Char) (r : List Char),
      stripTicksB (stripWsB x) = c1 :: c2 :: c3 :: r →
      c1.toLower = 's' → c2.toLower = 'q' → c3.toLower = 'l' →
      preprocess x = stripWsB (r.dropWhile (fun c => c = ':'))) ∧
    (startsWithCI sqlTok (stripTicksB (stripWsB x)) = false →
      preprocess x = stripTicksB (stripWsB x)) := by
  constructor
  · intro c1 c2 c3 r hsplit h1 h2 h3
    have htok : sqlTok = ['s', 'q', 'l'] := rfl
    have hci : startsWithCI sqlTok (c1 :: c2 :: c3 :: r) = true := by
      rw [htok]
      simp [startsWithCI, stripPrefCI, h1, h2, h3]
    unfold preprocess
    rw [hsplit]
    simp [hci]
  · intro hns
    simp [preprocess, hns]

/-- Witness for the amended C9: `"sqlite"` has its `sql` prefix stripped even
though an `i` follows, and `"select 1"` (no `sql` prefix) passes through. -/
theorem claim_C9_witness :
    preprocess "sqlite".toList = "ite".toList ∧
    preprocess "select 1".toList = "select 1".toList := by
  constructor
  · have h := (claim_C9_amended "sqlite".toList).1 's' 'q' 'l' "ite".toList
      (by decide) (by decide) (by decide) (by decide)
    rw [h]; decide
  · have h := (claim_C9_amended "select 1".toList).2 (by decide)
    rw [h]; decide

/-! ### Claim C10 -/

/-- Claim C10: when the guardrail validator rejects the candidate, the
execute node performs no execution (its result does not depend on the
execution adapter) and returns a state whose `sql_final` is the raw,
unsanitized candidate, whose `error` embeds the validation failure message,
whose `row_count` is `0` and whose `columns` is empty; the final report's
`sql_executed` field then carries that raw candidate. -/
theorem claim_C10_validation_failure (cfg : AgentCfg)
    (execA execA' : List Char → Except (List Char) ExecRes)
    (st : AgentSt) (raw e : List Char)
    (hsql : st.sql = some raw)
    (herr : sanitizeSql raw cfg.allowNonSelect cfg.defaultLimit cfg.hardMaxRows =
      .error e) :
    executeNode cfg execA st = executeNode cfg execA' st ∧
    (executeNode cfg execA st).sqlFinal = some raw ∧
    (executeNode cfg execA st).error =
      some ("SQL sanitization failed: ".toList ++ e) ∧
    (executeNode cfg execA st).rowCount = 0 ∧
    (executeNode cfg execA st).columns = [] ∧
    (executeNode cfg execA st).resultsDf = none ∧
    (buildReport cfg (executeNode cfg execA st)).sqlExecuted = some raw := by
  have hrun : ∀ eA : List Char → Except (List Char) ExecRes,
      executeNode cfg eA st =
        { st with
          sqlFinal := st.sql
          resultsDf := none
          rowCount := 0
          columns := []
          error := some ("SQL sanitization failed: ".toList ++ e)
          history := st.history ++ [HistE.execErr st.turn e] } := by
    intro eA
    unfold executeNode
    rw [hsql]
    simp only [Option.getD_some]
    rw [herr]
  rw [hrun execA, hrun execA']
  simp [buildReport, hsql]

/-- Witness for C10 at a concrete rejected candidate. -/
theorem claim_C10_witness :
    (∀ eA, executeNode cfgA eA stRejected = executeNode cfgA execFail stRejected) ∧
    (executeNode cfgA execFail stRejected).sqlFinal =
      some "DELETE FROM t".toList ∧
    (executeNode cfgA execFail stRejected).error =
      some ("SQL sanitization failed: ".toList ++ selectMsg) ∧
    (executeNode cfgA execFail stRejected).rowCount = 0 ∧
    (executeNode cfgA execFail stRejected).columns = [] := by
  have h := fun eA => claim_C10_validation_failure cfgA eA execFail stRejected
    "DELETE FROM t".toList selectMsg rfl (by decide)
  exact ⟨fun eA => (h eA).1, (h execFail).2.1, (h execFail).2.2.1,
    (h execFail).2.2.2.1, (h execFail).2.2.2.2.1⟩

/-! ### Claim C4 -/

/-- Claim C4: `review_node` evaluates its checks in strict priority order,
first match winning: (1) if `turn >= max_turns` it returns EXIT with the
fallback message, for every value of the execution error and independently of
the verdict adapter; (2) otherwise, if the last execution failed (truthy
error), it returns REFINE with feedback embedding the failure message
verbatim behind the prefix `REFINE: SQL execution failed with error: `,
independently of the verdict adapter; (3) otherwise it invokes the adapter
and returns EXIT with no feedback iff the verdict text begins with `GOOD`
(case-insensitive), else REFINE with the full verdict text as feedback. -/
theorem claim_C4_review_priority (cfg : AgentCfg)
    (vA : List Char → List Char) (st : AgentSt) :
    (cfg.maxTurns ≤ st.turn →
      ∀ (e : Option (List Char)) (vA' : List Char → List Char),
        (reviewNode cfg vA' { st with error := e }).decision = exitD ∧
        (reviewNode cfg vA' { st with error := e }).feedback =
          some (fallbackMsg cfg)) ∧
    (st.turn < cfg.maxTurns → pyTruthy st.error = true →
      ∀ vA' : List Char → List Char,
        (reviewNode cfg vA' st).decision = refineD ∧
        (reviewNode cfg vA' st).feedback =
          some ("REFINE: SQL execution failed with error: ".toList ++
            st.error.getD [])) ∧
    (st.turn < cfg.maxTurns → pyTruthy st.error = false →
      ((startsGood (vA (verdictPrompt cfg st)) = true →
         (reviewNode cfg vA st).decision = exitD ∧
         (reviewNode cfg vA st).feedback = none) ∧
       (startsGood (vA (verdictPrompt cfg st)) = false →
         (reviewNode cfg vA st).decision = refineD ∧
         (reviewNode cfg vA st).feedback =
           some (vA (verdictPrompt cfg st))))) := by
  refine ⟨?_, ?_, ?_⟩
  · intro hle e vA'
    constructor <;> simp [reviewNode, hle]
  · intro hlt herr vA'
    constructor <;> simp [reviewNode, Nat.not_le.mpr hlt, herr]
  · intro hlt herr
    constructor
    · intro hg
      constructor <;> simp [reviewNode, Nat.not_le.mpr hlt, herr, hg]
    · intro hg
      constructor <;> simp [reviewNode, Nat.not_le.mpr hlt, herr, hg]

/-- Witness for C4: the three priority cases at concrete states — a state at
the turn budget (with a pending error that is ignored), a state with an
execution error, and an error-free state judged by a non-`GOOD` verdict. -/
theorem claim_C4_witness :
    ((reviewNode cfgTwo verdictBad
        { initState cfgTwo [] with turn := 2, error := some "boom".toList }).decision =
      exitD ∧
     (reviewNode cfgTwo verdictBad
        { initState cfgTwo [] with turn := 2, error := some "boom".toList }).feedback =
      some (fallbackMsg cfgTwo)) ∧
    ((reviewNode cfgTwo verdictBad
        { initState cfgTwo [] with turn := 1, error := some "boom".toList }).decision =
      refineD ∧
     (reviewNode cfgTwo verdictBad
        { initState cfgTwo [] with turn := 1, error := some "boom".toList }).feedback =
      some ("REFINE: SQL execution failed with error: boom".toList)) ∧
    ((reviewNode cfgTwo verdictBad
        { initState cfgTwo [] with turn := 1 }).decision = refineD ∧
     (reviewNode cfgTwo verdictBad
        { initState cfgTwo [] with turn := 1 }).feedback =
      some "BAD: wrong".toList) := by
  refine ⟨?_, ?_, ?_⟩
  · have h := (claim_C4_review_priority cfgTwo verdictBad
      { initState cfgTwo [] with turn := 2 }).1 (by decide)
      (some "boom".toList) verdictBad
    exact h
  · have h := (claim_C4_review_priority cfgTwo verdictBad
      { initState cfgTwo [] with turn := 1, error := some "boom".toList }).2.1
      (by decide) (by decide) verdictBad
    exact ⟨h.1, h.2⟩
  · have h := ((claim_C4_review_priority cfgTwo verdictBad
      { initState cfgTwo [] with turn := 1 }).2.2
      (by decide) (by decide)).2 (by decide)
    exact h

/-! ### Loop lemmas for claim C3 -/

theorem executeNode_turn (cfg : AgentCfg)
    (eA : List Char → Except (List Char) ExecRes) (st : AgentSt) :
    (executeNode cfg eA st).turn = st.turn := by
  unfold executeNode
  dsimp only
  split
  · rfl
  · split <;> rfl

theorem reviewNode_turn (cfg : AgentCfg) (vA : List Char → List Char)
    (st : AgentSt) : (reviewNode cfg vA st).turn = st.turn := by
  unfold reviewNode
  dsimp only
  split
  · rfl
  · split
    · rfl
    · split <;> rfl

theorem agentTurn_turn (cfg : AgentCfg) (g : List Char → List Char)
    (e : List Char → Except (List Char) ExecRes) (v : List Char → List Char)
    (st : AgentSt) : (agentTurn cfg g e v st).turn = st.turn + 1 := by
  unfold agentTurn
  rw [reviewNode_turn, executeNode_turn]
  rfl

theorem reviewNode_not_exit {cfg : AgentCfg} {vA : List Char → List Char}
    {st : AgentSt} (h : (reviewNode cfg vA st).decision ≠ exitD) :
    st.turn < cfg.maxTurns := by
  by_contra hc
  have hle : cfg.maxTurns ≤ st.turn := Nat.le_of_not_lt hc
  apply h
  unfold reviewNode
  rw [if_pos hle]

theorem reviewNode_refine_of {cfg : AgentCfg} {vA : List Char → List Char}
    {st : AgentSt} (hv : ∀ p, startsGood (vA p) = false)
    (hlt : st.turn < cfg.maxTurns) :
    (reviewNode cfg vA st).decision = refineD := by
  unfold reviewNode
  rw [if_neg (Nat.not_le.mpr hlt)]
  by_cases he : pyTruthy st.error
  · simp [he]
  · simp [he, hv (verdictPrompt cfg st)]

theorem reviewNode_max_exit {cfg : AgentCfg} {vA : List Char → List Char}
    {st : AgentSt} (hle : cfg.maxTurns ≤ st.turn) :
    (reviewNode cfg vA st).decision = exitD ∧
    (reviewNode cfg vA st).feedback = some (fallbackMsg cfg) := by
  unfold reviewNode
  rw [if_pos hle]
  exact ⟨rfl, rfl⟩

theorem runLoop_succ (cfg : AgentCfg) (g : List Char → List Char)
    (e : List Char → Except (List Char) ExecRes) (v : List Char → List Char)
    (f : Nat) (st : AgentSt) :
    runLoop cfg g e v (f + 1) st =
      if (agentTurn cfg g e v st).decision = exitD then agentTurn cfg g e v st
      else runLoop cfg g e v f (agentTurn cfg g e v st) := rfl

theorem runLoop_turn_le (cfg : AgentCfg) (g : List Char → List Char)
    (e : List Char → Except (List Char) ExecRes) (v : List Char → List Char) :
    ∀ (fuel : Nat) (st : AgentSt), st.turn < cfg.maxTurns →
      (runLoop cfg g e v fuel st).turn ≤ cfg.maxTurns := by
  intro fuel
  induction fuel with
  | zero => intro st h; exact Nat.le_of_lt h
  | succ f ih =>
    intro st h
    rw [runLoop_succ]
    by_cases hd : (agentTurn cfg g e v st).decision = exitD
    · rw [if_pos hd, agentTurn_turn]
      omega
    · rw [if_neg hd]
      apply ih
      have h2 : (executeNode cfg e (generateNode cfg g st)).turn < cfg.maxTurns :=
        reviewNode_not_exit hd
      have h3 : (executeNode cfg e (generateNode cfg g st)).turn = st.turn + 1 := by
        rw [executeNode_turn]; rfl
      rw [agentTurn_turn]
      omega

theorem runLoop_exhaust (cfg : AgentCfg) (g : List Char → List Char)
    (e : List Char → Except (List Char) ExecRes) (v : List Char → List Char)
    (hv : ∀ p, startsGood (v p) = false) :
    ∀ (fuel : Nat) (st : AgentSt), st.turn < cfg.maxTurns →
      cfg.maxTurns ≤ fuel + st.turn →
      (runLoop cfg g e v fuel st).decision = exitD ∧
      (runLoop cfg g e v fuel st).turn = cfg.maxTurns ∧
      (runLoop cfg g e v fuel st).feedback = some (fallbackMsg cfg) := by
  intro fuel
  induction fuel with
  | zero => intro st h hle; omega
  | succ f ih =>
    intro st h hle
    rw [runLoop_succ]
    have ht2 : (executeNode cfg e (generateNode cfg g st)).turn = st.turn + 1 := by
      rw [executeNode_turn]; rfl
    by_cases hb : cfg.maxTurns ≤ (executeNode cfg e (generateNode cfg g st)).turn
    · have hdec := @reviewNode_max_exit cfg v _ hb
      have hexit : (agentTurn cfg g e v st).decision = exitD := hdec.1
      rw [if_pos hexit]
      refine ⟨hdec.1, ?_, hdec.2⟩
      show (reviewNode cfg v (executeNode cfg e (generateNode cfg g st))).turn = _
      rw [reviewNode_turn, ht2]
      omega
    · have hlt2 : (executeNode cfg e (generateNode cfg g st)).turn < cfg.maxTurns :=
        Nat.lt_of_not_le hb
      have hdec : (agentTurn cfg g e v st).decision = refineD :=
        reviewNode_refine_of hv hlt2
      have hne : (agentTurn cfg g e v st).decision ≠ exitD := by
        rw [hdec]; decide
      rw [if_neg hne]
      apply ih
      · rw [agentTurn_turn]; omega
      · rw [agentTurn_turn]; omega

/-! ### Claim C3 -/

/-- Claim C3 counterexample: with `max_turns = 0` the orchestrator still
performs one generation step (the budget check happens only after the turn
counter has advanced), so a run exists with more than `maxTurns` generation
steps, terminating after `1 ≠ 0` turns. -/
theorem claim_C3_counterexample :
    cfgZero.maxTurns = 0 ∧
    (runLoop cfgZero genConst execOne verdictBad 1
      (initState cfgZero "q".toList)).turn = 1 ∧
    (runLoop cfgZero genConst execOne verdictBad 1
      (initState cfgZero "q".toList)).decision = exitD := by
  refine ⟨rfl, by decide, by decide⟩

/-- Claim C3 (amended): provided `max_turns ≥ 1`, every run performs at most
`maxTurns` generation steps (the turn counter of the final state never
exceeds `maxTurns`, each generation step incrementing it exactly once); and
when the review adapter always returns a verdict not beginning with `GOOD`
and execution always succeeds, any sufficiently fuelled run terminates with
an EXIT decision at exactly `maxTurns` turns, with the budget-exhausted
fallback message as feedback. -/
theorem claim_C3_amended (cfg : AgentCfg) (g : List Char → List Char)
    (e : List Char → Except (List Char) ExecRes) (v : List Char → List Char)
    (req : List Char) (fuel : Nat) (h1 : 1 ≤ cfg.maxTurns) :
    (runLoop cfg g e v fuel (initState cfg req)).turn ≤ cfg.maxTurns ∧
    ((∀ p, startsGood (v p) = false) → (∀ q, ∃ r, e q = .ok r) →
      cfg.maxTurns ≤ fuel →
      (runLoop cfg g e v fuel (initState cfg req)).decision = exitD ∧
      (runLoop cfg g e v fuel (initState cfg req)).turn = cfg.maxTurns ∧
      (runLoop cfg g e v fuel (initState cfg req)).feedback =
        some (fallbackMsg cfg)) := by
  constructor
  · exact runLoop_turn_le cfg g e v fuel (initState cfg req) (by simp [initState]; omega)
  · intro hv _ hfuel
    exact runLoop_exhaust cfg g e v hv fuel (initState cfg req)
      (by simp [initState]; omega) (by simp [initState]; omega)

/-- Witness for the amended C3: with a two-turn budget and an adapter that
always answers `BAD: wrong`, the run exits after exactly two turns with the
fallback message. -/
theorem claim_C3_witness :
    (runLoop cfgTwo genConst execOne verdictBad 2
      (initState cfgTwo "q".toList)).turn ≤ cfgTwo.maxTurns ∧
    (runLoop cfgTwo genConst execOne verdictBad 2
      (initState cfgTwo "q".toList)).decision = exitD ∧
    (runLoop cfgTwo genConst execOne verdictBad 2
      (initState cfgTwo "q".toList)).turn = cfgTwo.maxTurns ∧
    (runLoop cfgTwo genConst execOne verdictBad 2
      (initState cfgTwo "q".toList)).feedback = some (fallbackMsg cfgTwo) := by
  have h := claim_C3_amended cfgTwo genConst execOne verdictBad "q".toList 2
    (by decide)
  have h2 := h.2
    (fun p => by show startsGood "BAD: wrong".toList = false; decide)
    (fun q => ⟨_, rfl⟩) (by decide)
  exact ⟨h.1, h2.1, h2.2.1, h2.2.2⟩

/-! ### Claim C8 -/

/-- Claim C8 is contradicted by the code: `generate_sql_node` formats the
refinement template with `state["previous_sql"]`, but `previous_sql` is only
assigned (from the pre-update `sql`) as the node returns, so at the first
refinement the slot still holds `None` — Python renders the literal string
`"None"` into the prompt — and in later turns it holds the raw candidate of
two generations back.  Concretely: after one full
generate/execute/review turn with candidate `SELECT * FROM t` (sanitized to
`SELECT * FROM t LIMIT 100`, one result row, verdict `BAD: wrong`), the next
generation prompt is `PREV:None|ROWS:1|FB:BAD: wrong|SCHEMA:S` — it contains
the row count and the feedback, but not the previous sanitized query. -/
theorem claim_C8_bug :
    (agentTurn cfgA genConst execOne verdictBad
      (initState cfgA "q".toList)).decision = refineD ∧
    (agentTurn cfgA genConst execOne verdictBad
      (initState cfgA "q".toList)).sqlFinal =
      some "SELECT * FROM t LIMIT 100".toList ∧
    (agentTurn cfgA genConst execOne verdictBad
      (initState cfgA "q".toList)).previousSql = none ∧
    genPrompt cfgA (agentTurn cfgA genConst execOne verdictBad
      (initState cfgA "q".toList)) =
      "PREV:None|ROWS:1|FB:BAD: wrong|SCHEMA:S".toList ∧
    containsSeq "SELECT * FROM t LIMIT 100".toList
      (genPrompt cfgA (agentTurn cfgA genConst execOne verdictBad
        (initState cfgA "q".toList))) = false := by
  refine ⟨by decide, by decide, by decide, by decide, by decide⟩

/-! ### Prefix and containment lemmas -/

theorem isPrefOf_append_self (pat r : List Char) :
    isPrefOf pat (pat ++ r) = true := by
  induction pat with
  | nil => rfl
  | cons c cs ih => simp [isPrefOf, ih]

theorem containsSeq_cons (pat : List Char) (c : Char) {t : List Char}
    (h : containsSeq pat t = true) : containsSeq pat (c :: t) = true := by
  simp [containsSeq, h]

theorem containsSeq_of_isPrefOf {pat l : List Char}
    (h : isPrefOf pat l = true) : containsSeq pat l = true := by
  cases l with
  | nil => simpa [containsSeq] using h
  | cons c t => simp [containsSeq, h]

theorem stripPrefCI_append {tok l r : List Char}
    (h : stripPrefCI tok l = some r) (ext : List Char) :
    stripPrefCI tok (l ++ ext) = some (r ++ ext) := by
  induction tok generalizing l with
  | nil =>
    cases h
    rfl
  | cons p ps ih =>
    cases l with
    | nil => exact absurd h (by simp [stripPrefCI])
    | cons c cs =>
      rw [stripPrefCI] at h
      by_cases hc : c.toLower = p
      · rw [if_pos hc] at h
        show stripPrefCI (p :: ps) (c :: (cs ++ ext)) = _
        rw [stripPrefCI, if_pos hc]
        exact ih h
      · rw [if_neg hc] at h
        exact absurd h (by simp)

theorem stripPrefCI_decomp {tok l r : List Char}
    (h : stripPrefCI tok l = some r) :
    ∃ m, l = m ++ r ∧ List.Forall₂ (fun c p => c.toLower = p) m tok := by
  induction tok generalizing l with
  | nil =>
    cases h
    exact ⟨[], rfl, List.Forall₂.nil⟩
  | cons p ps ih =>
    cases l with
    | nil => exact absurd h (by simp [stripPrefCI])
    | cons c cs =>
      rw [stripPrefCI] at h
      by_cases hc : c.toLower = p
      · rw [if_pos hc] at h
        obtain ⟨m, rfl, hf⟩ := ih h
        exact ⟨c :: m, rfl, List.Forall₂.cons hc hf⟩
      · rw [if_neg hc] at h
        exact absurd h (by simp)

theorem forall2_stripPrefCI {tok m : List Char}
    (h : List.Forall₂ (fun c p => c.toLower = p) m tok) :
    stripPrefCI tok m = some [] := by
  induction h with
  | nil => rfl
  | cons hc _ ih =>
    rw [stripPrefCI, if_pos hc]
    exact ih

/-! ### Append-stability of the select-only check -/

theorem tokenAfter_append {r ext : List Char} (h : tokenAfter r = true)
    (hext : ∀ c cs, ext = c :: cs → isWordChar c = false) :
    tokenAfter (r ++ ext) = true := by
  cases r with
  | nil =>
    cases ext with
    | nil => rfl
    | cons c cs => simpa [tokenAfter] using hext c cs rfl
  | cons c cs => simpa [tokenAfter] using h

theorem startsTok_append {tok l : List Char} (h : startsTok tok l = true)
    (ext : List Char) (hext : ∀ c cs, ext = c :: cs → isWordChar c = false) :
    startsTok tok (l ++ ext) = true := by
  unfold startsTok at h ⊢
  rcases hs : stripPrefCI tok l with _ | r
  · rw [hs] at h; exact absurd h (by simp)
  · rw [hs] at h
    rw [stripPrefCI_append hs ext]
    exact tokenAfter_append h hext

theorem selectOnly_append {l : List Char} (h : selectOnly l = true)
    (ext : List Char) (hext : ∀ c cs, ext = c :: cs → isWordChar c = false) :
    selectOnly (l ++ ext) = true := by
  induction l with
  | nil => exact absurd h (by simp [selectOnly])
  | cons c t ih =>
    rw [selectOnly] at h
    by_cases hw : isWs c
    · rw [if_pos hw] at h
      show selectOnly (c :: (t ++ ext)) = true
      rw [selectOnly, if_pos hw]
      exact ih h
    · rw [if_neg hw] at h
      show selectOnly (c :: (t ++ ext)) = true
      rw [selectOnly, if_neg hw]
      rcases Bool.or_eq_true_iff.mp h with h1 | h1
      · exact Bool.or_eq_true_iff.mpr (Or.inl (startsTok_append h1 ext hext))
      · exact Bool.or_eq_true_iff.mpr (Or.inr (startsTok_append h1 ext hext))

/-! ### Right-strip lemmas -/

theorem rstripP_eq_nil_iff (p : Char → Bool) (l : List Char) :
    rstripP p l = [] ↔ ∀ x ∈ l, p x = true := by
  induction l with
  | nil => simp [rstripP]
  | cons c t ih =>
    rw [rstripP]
    rcases ht : rstripP p t with _ | ⟨d, r⟩
    · have hall := ih.mp ht
      by_cases hc : p c
      · simp only [if_pos hc]
        simp only [List.mem_cons, true_iff]
        intro x hx
        rcases hx with rfl | hx
        · exact hc
        · exact hall x hx
      · simp only [if_neg hc]
        constructor
        · intro h; cases h
        · intro hall2
          exact absurd (hall2 c (by simp)) hc
    · constructor
      · intro h; cases h
      · intro hall2
        have : rstripP p t = [] := ih.mpr (fun x hx => hall2 x (by simp [hx]))
        rw [ht] at this
        cases this

theorem rstripP_head_of_ne {p : Char → Bool} {l : List Char}
    (h : rstripP p l ≠ []) : (rstripP p l).head? = l.head? := by
  cases l with
  | nil => simp [rstripP] at h
  | cons c t =>
    rw [rstripP] at h ⊢
    rcases ht : rstripP p t with _ | ⟨d, r⟩
    · rw [ht] at h
      by_cases hc : p c
      · rw [if_pos hc] at h; cases h rfl
      · rw [if_neg hc]; rfl
    · rw [ht] at h
      rfl

theorem rstripP_append (p : Char → Bool) (m r : List Char) :
    rstripP p (m ++ r) =
      if rstripP p r = [] then rstripP p m else m ++ rstripP p r := by
  induction m with
  | nil =>
    by_cases hr : rstripP p r = []
    · simp [hr, rstripP]
    · simp [hr]
  | cons c m' ih =>
    show rstripP p (c :: (m' ++ r)) = _
    rw [rstripP, ih]
    by_cases hr : rstripP p r = []
    · rw [if_pos hr, if_pos hr]
      rw [rstripP]
    · rw [if_neg hr, if_neg hr]
      rcases hrr : rstripP p r with _ | ⟨d0, r0⟩
      · exact absurd hrr hr
      · rcases m' with _ | ⟨e, m''⟩ <;> simp

theorem rstripP_all_neg {p : Char → Bool} {l : List Char}
    (h : ∀ x ∈ l, p x = false) : rstripP p l = l := by
  induction l with
  | nil => rfl
  | cons c t ih =>
    rw [rstripP, ih (fun x hx => h x (by simp [hx]))]
    cases t with
    | nil => simp [h c (by simp)]
    | cons d r => rfl

theorem forall2_mem_left {R : Char → Char → Prop} {m tok : List Char}
    (h : List.Forall₂ R m tok) : ∀ x ∈ m, ∃ y ∈ tok, R x y := by
  induction h with
  | nil => intro x hx; cases hx
  | cons hr _ ih =>
    intro x hx
    rcases List.mem_cons.mp hx with rfl | hx
    · exact ⟨_, by simp, hr⟩
    · obtain ⟨y, hy, hxy⟩ := ih x hx
      exact ⟨y, by simp [hy], hxy⟩

theorem startsTok_rstrip {tok l : List Char} (p : Char → Bool)
    (hp : ∀ c, p c = true → ∀ pch ∈ tok, c.toLower ≠ pch)
    (h : startsTok tok l = true) :
    startsTok tok (rstripP p l) = true := by
  unfold startsTok at h
  rcases hs : stripPrefCI tok l with _ | r
  · rw [hs] at h; exact absurd h (by simp)
  · rw [hs] at h
    obtain ⟨m, rfl, hf⟩ := stripPrefCI_decomp hs
    have hmne : ∀ x ∈ m, p x = false := by
      intro x hx
      by_contra hc
      have hpx : p x = true := by simpa using hc
      obtain ⟨pch, hpmem, hlow⟩ := forall2_mem_left hf x hx
      exact hp x hpx pch hpmem hlow
    rw [rstripP_append]
    by_cases hr : rstripP p r = []
    · rw [if_pos hr, rstripP_all_neg hmne]
      unfold startsTok
      rw [forall2_stripPrefCI hf]
      rfl
    · rw [if_neg hr]
      unfold startsTok
      rw [stripPrefCI_append (forall2_stripPrefCI hf) (rstripP p r)]
      simp only [List.nil_append]
      cases r with
      | nil => simp [rstripP] at hr
      | cons c0 t0 =>
        have hh := rstripP_head_of_ne hr
        rcases hrr : rstripP p (c0 :: t0) with _ | ⟨d0, s0⟩
        · exact absurd hrr hr
        · rw [hrr] at hh
          have hd0 : d0 = c0 := by
            simpa using hh
          subst hd0
          simpa [tokenAfter] using h

/-! ### Select-only stability under right-stripping and appending -/

theorem nonword_toLower_ne {c pch : Char} (hc : isWordChar c = false)
    (hl : isWordChar pch = true) : c.toLower ≠ pch := by
  intro he
  have := toLower_wordChar (c := c) (by rw [he]; exact hl)
  rw [hc] at this
  cases this

theorem startsTok_head_lower {pch : Char} {ps : List Char} {c : Char}
    {t : List Char} (h : startsTok (pch :: ps) (c :: t) = true) :
    c.toLower = pch := by
  by_cases hc : c.toLower = pch
  · exact hc
  · unfold startsTok stripPrefCI at h
    rw [if_neg hc] at h
    simp at h

theorem withTok_eq : withTok = 'w' :: ['i', 't', 'h'] := rfl

theorem selTok_eq : selTok = 's' :: ['e', 'l', 'e', 'c', 't'] := rfl

theorem selectOnly_exists_nonp {l : List Char} (p : Char → Bool)
    (hp1 : ∀ c, p c = true → ∀ pch ∈ withTok, c.toLower ≠ pch)
    (hp2 : ∀ c, p c = true → ∀ pch ∈ selTok, c.toLower ≠ pch)
    (h : selectOnly l = true) : ∃ x ∈ l, p x = false := by
  induction l with
  | nil => simp [selectOnly] at h
  | cons c t ih =>
    rw [selectOnly] at h
    by_cases hw : isWs c
    · rw [if_pos hw] at h
      obtain ⟨x, hx, hpx⟩ := ih h
      exact ⟨x, by simp [hx], hpx⟩
    · rw [if_neg hw] at h
      refine ⟨c, by simp, ?_⟩
      by_contra hcp
      have hpc : p c = true := by simpa using hcp
      rcases Bool.or_eq_true_iff.mp h with h1 | h1
      · rw [withTok_eq] at h1
        exact hp1 c hpc 'w' (by rw [withTok_eq]; simp) (startsTok_head_lower h1)
      · rw [selTok_eq] at h1
        exact hp2 c hpc 's' (by rw [selTok_eq]; simp) (startsTok_head_lower h1)

theorem selectOnly_rstrip {l : List Char} (p : Char → Bool)
    (hp1 : ∀ c, p c = true → ∀ pch ∈ withTok, c.toLower ≠ pch)
    (hp2 : ∀ c, p c = true → ∀ pch ∈ selTok, c.toLower ≠ pch)
    (h : selectOnly l = true) : selectOnly (rstripP p l) = true := by
  induction l with
  | nil => simp [selectOnly] at h
  | cons c t ih =>
    rw [selectOnly] at h
    by_cases hw : isWs c
    · rw [if_pos hw] at h
      rw [rstripP]
      rcases ht : rstripP p t with _ | ⟨d, r⟩
      · obtain ⟨x, hx, hpx⟩ := selectOnly_exists_nonp p hp1 hp2 h
        have := (rstripP_eq_nil_iff p t).mp ht x hx
        rw [this] at hpx
        cases hpx
      · have h2 := ih h
        rw [ht] at h2
        show selectOnly (c :: d :: r) = true
        rw [selectOnly, if_pos hw]
        exact h2
    · rw [if_neg hw] at h
      have hcp : p c = false := by
        by_contra hcp2
        have hpc : p c = true := by simpa using hcp2
        rcases Bool.or_eq_true_iff.mp h with h1 | h1
        · rw [withTok_eq] at h1
          exact hp1 c hpc 'w' (by rw [withTok_eq]; simp) (startsTok_head_lower h1)
        · rw [selTok_eq] at h1
          exact hp2 c hpc 's' (by rw [selTok_eq]; simp) (startsTok_head_lower h1)
      have hne : rstripP p (c :: t) ≠ [] := by
        rw [Ne, rstripP_eq_nil_iff]
        intro hall
        have := hall c (by simp)
        rw [hcp] at this
        cases this
      rcases hrr : rstripP p (c :: t) with _ | ⟨d, r⟩
      · exact absurd hrr hne
      · have hd : d = c := by
          have hh := rstripP_head_of_ne hne
          rw [hrr] at hh
          simpa using hh
        subst hd
        rw [selectOnly, if_neg hw]
        rcases Bool.or_eq_true_iff.mp h with h1 | h1
        · have h2 := startsTok_rstrip p hp1 h1
          rw [hrr] at h2
          simp [h2]
        · have h2 := startsTok_rstrip p hp2 h1
          rw [hrr] at h2
          simp [h2]

theorem withTok_words : ∀ pch ∈ withTok, isWordChar pch = true := by decide

theorem selTok_words : ∀ pch ∈ selTok, isWordChar pch = true := by decide

theorem selectOnly_appendLimit {s : List Char} (h : selectOnly s = true)
    (d : Nat) : selectOnly (appendLimit s d) = true := by
  have hws1 : ∀ c, isWs c = true → ∀ pch ∈ withTok, c.toLower ≠ pch :=
    fun c hc pch hm => nonword_toLower_ne (ws_not_word hc) (withTok_words pch hm)
  have hws2 : ∀ c, isWs c = true → ∀ pch ∈ selTok, c.toLower ≠ pch :=
    fun c hc pch hm => nonword_toLower_ne (ws_not_word hc) (selTok_words pch hm)
  have hsm1 : ∀ c, (decide (c = ';') : Bool) = true → ∀ pch ∈ withTok, c.toLower ≠ pch := by
    intro c hc pch hm
    have : c = ';' := by simpa using hc
    subst this
    exact nonword_toLower_ne (by decide) (withTok_words pch hm)
  have hsm2 : ∀ c, (decide (c = ';') : Bool) = true → ∀ pch ∈ selTok, c.toLower ≠ pch := by
    intro c hc pch hm
    have : c = ';' := by simpa using hc
    subst this
    exact nonword_toLower_ne (by decide) (selTok_words pch hm)
  have h1 := selectOnly_rstrip isWs hws1 hws2 h
  have h2 := selectOnly_rstrip (fun c => decide (c = ';')) hsm1 hsm2 h1
  have h3 := selectOnly_append h2 (" LIMIT ".toList ++ natToDigits d)
    (by
      intro c cs hcc
      have hc : c = ' ' := by
        have h4 : (" LIMIT ".toList ++ natToDigits d).head? = some c := by
          rw [hcc]; rfl
        have : some ' ' = some c := by simpa using h4
        exact (Option.some_inj.mp this).symm
      subst hc
      decide)
  unfold appendLimit
  rw [List.append_assoc]
  exact h3

/-! ### Structure of limit-clause matches -/

theorem word_not_ws {c : Char} (h : isWordChar c = true) : isWs c = false := by
  cases hw : isWs c
  · rfl
  · rw [ws_not_word hw] at h
    cases h

theorem limitTok_words : ∀ pch ∈ limitTok, isWordChar pch = true := by decide

theorem limitAt_decomp {l : List Char} {n : Nat} {r : List Char}
    (h : limitAt l = some (n, r)) :
    ∃ m5 wsp ds, l = m5 ++ (wsp ++ (ds ++ r)) ∧
      List.Forall₂ (fun c p => c.toLower = p) m5 limitTok ∧
      wsp ≠ [] ∧ (∀ x ∈ wsp, isWs x = true) ∧
      ds ≠ [] ∧ (∀ x ∈ ds, x.isDigit = true) ∧
      n = digitsVal ds ∧ tokenAfter r = true := by
  unfold limitAt at h
  rcases hs : stripPrefCI limitTok l with _ | r1
  · rw [hs] at h; cases h
  · rw [hs] at h
    dsimp only at h
    obtain ⟨m5, rfl, hf⟩ := stripPrefCI_decomp hs
    rcases hw : r1.takeWhile isWs with _ | ⟨w0, ws0⟩
    · rw [hw] at h; cases h
    · rw [hw] at h
      dsimp only at h
      rcases hd : (r1.dropWhile isWs).takeWhile Char.isDigit with _ | ⟨d0, ds0⟩
      · rw [hd] at h; cases h
      · rw [hd] at h
        dsimp only at h
        have key : n = digitsVal (d0 :: ds0) ∧
            r = (r1.dropWhile isWs).dropWhile Char.isDigit ∧
            tokenAfter r = true := by
          rcases hr3 : (r1.dropWhile isWs).dropWhile Char.isDigit with _ | ⟨c3, t3⟩
          · rw [hr3] at h
            dsimp only at h
            injection h with h2
            injection h2 with h3 h4
            exact ⟨h3.symm, h4.symm, by rw [← h4]; rfl⟩
          · rw [hr3] at h
            dsimp only at h
            by_cases hwd : isWordChar c3
            · rw [if_pos hwd] at h; cases h
            · rw [if_neg hwd] at h
              injection h with h2
              injection h2 with h3 h4
              refine ⟨h3.symm, h4.symm, ?_⟩
              rw [← h4]
              simp [tokenAfter, hwd]
        obtain ⟨hn, hr, hta⟩ := key
        refine ⟨m5, r1.takeWhile isWs,
          (r1.dropWhile isWs).takeWhile Char.isDigit, ?_, hf, ?_, ?_, ?_, ?_, hn.trans (by rw [hd]), hta⟩
        · rw [hr]
          rw [List.takeWhile_append_dropWhile, List.takeWhile_append_dropWhile]
        · rw [hw]; simp
        · intro x hx; exact List.mem_takeWhile_imp hx
        · rw [hd]; simp
        · intro x hx; exact List.mem_takeWhile_imp hx

theorem limitAt_span_no_semi {m5 wsp ds : List Char}
    (hf : List.Forall₂ (fun c p => c.toLower = p) m5 limitTok)
    (hws : ∀ x ∈ wsp, isWs x = true)
    (hds : ∀ x ∈ ds, x.isDigit = true) :
    ∀ x ∈ m5 ++ (wsp ++ ds), x ≠ ';' := by
  intro x hx
  rcases List.mem_append.mp hx with hx | hx
  · obtain ⟨pch, hpm, hlow⟩ := forall2_mem_left hf x hx
    have hword : isWordChar x = true :=
      toLower_wordChar (by rw [hlow]; exact limitTok_words pch hpm)
    intro he
    subst he
    exact absurd hword (by decide)
  · rcases List.mem_append.mp hx with hx | hx
    · intro he
      subst he
      exact absurd (hws _ hx) (by decide)
    · exact digit_ne_semi (hds _ hx)

theorem limitAt_head_lower {c : Char} {rest : List Char} {n : Nat}
    {r : List Char} (h : limitAt (c :: rest) = some (n, r)) :
    c.toLower = 'l' := by
  by_cases hc : c.toLower = 'l'
  · exact hc
  · unfold limitAt at h
    have : stripPrefCI limitTok (c :: rest) = none := by
      show stripPrefCI ('l' :: ['i', 'm', 'i', 't']) (c :: rest) = none
      rw [stripPrefCI, if_neg hc]
    rw [this] at h
    cases h

theorem limitAt_none_of_head {c : Char} (rest : List Char)
    (hc : c.toLower ≠ 'l') : limitAt (c :: rest) = none := by
  unfold limitAt
  have : stripPrefCI limitTok (c :: rest) = none := by
    show stripPrefCI ('l' :: ['i', 'm', 'i', 't']) (c :: rest) = none
    rw [stripPrefCI, if_neg hc]
  rw [this]

theorem limitAt_rest_length {c : Char} {rest : List Char} {n : Nat}
    {r : List Char} (h : limitAt (c :: rest) = some (n, r)) :
    r.length ≤ rest.length := by
  obtain ⟨m5, wsp, ds, heq, hf, hwne, _, hdne, _, _, _⟩ := limitAt_decomp h
  have hm5 : m5 ≠ [] := by
    intro he
    subst he
    rw [show limitTok = 'l' :: ['i', 'm', 'i', 't'] from rfl] at hf
    cases hf
  have hlen := congrArg List.length heq
  simp [List.length_append] at hlen
  have h1 : 1 ≤ m5.length := List.length_pos.mpr hm5
  omega

/-! ### Multi-statement scan through clamping -/

theorem multiAux_append_no_semi {m : List Char} (hm : ∀ x ∈ m, x ≠ ';')
    (y : List Char) : multiAux false (m ++ y) = multiAux false y := by
  induction m with
  | nil => rfl
  | cons c m' ih =>
    have hc : c ≠ ';' := hm c (by simp)
    show multiAux false (c :: (m' ++ y)) = _
    rw [multiAux, if_neg hc]
    by_cases hw : isWs c
    · rw [if_pos hw]
      exact ih (fun x hx => hm x (by simp [hx]))
    · rw [if_neg hw]
      exact ih (fun x hx => hm x (by simp [hx]))

theorem multiAux_true_head {c : Char} (hc : c ≠ ';') (hw : isWs c = false)
    (y : List Char) : multiAux true (c :: y) = true := by
  rw [multiAux, if_neg hc, hw]
  rfl

theorem limitBlock_no_semi (h : Nat) : ∀ x ∈ limitBlock h, x ≠ ';' := by
  intro x hx
  unfold limitBlock at hx
  rcases List.mem_append.mp hx with hx | hx
  · intro he
    subst he
    revert hx
    decide
  · exact digit_ne_semi (natToDigits_all_digit h x hx)

/-! ### Unfolding equations for the scanners -/

theorem clampF_zero (h : Nat) (b : Bool) (l : List Char) :
    clampF h 0 b l = l := rfl

theorem clampF_cons_true (h f : Nat) (c : Char) (rest : List Char) :
    clampF h (f + 1) true (c :: rest) = c :: clampF h f (isWordChar c) rest := rfl

theorem clampF_cons_none {c : Char} {rest : List Char}
    (h f : Nat) (hla : limitAt (c :: rest) = none) :
    clampF h (f + 1) false (c :: rest) = c :: clampF h f (isWordChar c) rest := by
  conv_lhs => rw [clampF]
  rw [hla]
  simp

theorem clampF_cons_some {c : Char} {rest : List Char} {n : Nat} {r : List Char}
    (h f : Nat) (hla : limitAt (c :: rest) = some (n, r)) :
    clampF h (f + 1) false (c :: rest) = limitBlock h ++ clampF h f true r := by
  conv_lhs => rw [clampF]
  rw [hla]
  simp

theorem findLimitW_cons_true (c : Char) (rest : List Char) :
    findLimitW true (c :: rest) = findLimitW (isWordChar c) rest := rfl

theorem findLimitW_cons_none {c : Char} {rest : List Char}
    (hla : limitAt (c :: rest) = none) :
    findLimitW false (c :: rest) = findLimitW (isWordChar c) rest := by
  conv_lhs => rw [findLimitW]
  rw [hla]
  simp

theorem findLimitW_cons_some {c : Char} {rest : List Char} {n : Nat}
    {r : List Char} (hla : limitAt (c :: rest) = some (n, r)) :
    findLimitW false (c :: rest) = some n := by
  conv_lhs => rw [findLimitW]
  rw [hla]
  simp

/-! ### Clamping preserves the multi-statement scan -/

theorem forall2_cons_right {R : Char → Char → Prop} {m : List Char}
    {p : Char} {ps : List Char} (h : List.Forall₂ R m (p :: ps)) :
    ∃ c0 m', m = c0 :: m' ∧ R c0 p ∧ List.Forall₂ R m' ps := by
  cases h with
  | cons h1 h2 => exact ⟨_, _, rfl, h1, h2⟩

theorem multiAux_cons_congr {c : Char} {X Y : List Char}
    (h : ∀ s', multiAux s' X = multiAux s' Y) (seen : Bool) :
    multiAux seen (c :: X) = multiAux seen (c :: Y) := by
  by_cases hc : c = ';'
  · rw [multiAux, multiAux, if_pos hc, if_pos hc]
    exact h true
  · by_cases hw : isWs c
    · rw [multiAux, multiAux, if_neg hc, if_neg hc, if_pos hw, if_pos hw]
      exact h seen
    · rw [multiAux, multiAux, if_neg hc, if_neg hc, if_neg hw, if_neg hw]
      cases seen
      · simpa using h false
      · rfl

theorem clampF_multiAux (h : Nat) :
    ∀ (f : Nat) (b : Bool) (l : List Char) (seen : Bool),
      multiAux seen (clampF h f b l) = multiAux seen l := by
  intro f
  induction f with
  | zero => intro b l seen; rw [clampF_zero]
  | succ f' ih =>
    intro b l seen
    cases l with
    | nil => rfl
    | cons c rest =>
      by_cases hb : b
      · subst hb
        rw [clampF_cons_true]
        exact multiAux_cons_congr (fun s' => ih (isWordChar c) rest s') seen
      · have hb' : b = false := by simpa using hb
        subst hb'
        rcases hla : limitAt (c :: rest) with _ | ⟨n', r⟩
        · rw [clampF_cons_none h f' hla]
          exact multiAux_cons_congr (fun s' => ih (isWordChar c) rest s') seen
        · rw [clampF_cons_some h f' hla]
          obtain ⟨m5, wsp, ds, heq, hf2, hwne, hws, hdne, hds, _, _⟩ :=
            limitAt_decomp hla
          have hnosemi := limitAt_span_no_semi hf2 hws hds
          rw [heq]
          cases seen with
          | false =>
            have e1 : multiAux false (limitBlock h ++ clampF h f' true r) =
                multiAux false (clampF h f' true r) :=
              multiAux_append_no_semi (limitBlock_no_semi h) _
            have e2 : m5 ++ (wsp ++ (ds ++ r)) = (m5 ++ (wsp ++ ds)) ++ r := by
              simp [List.append_assoc]
            rw [e1, ih true r false, e2,
              multiAux_append_no_semi hnosemi r]
          | true =>
            rw [show limitTok = 'l' :: ['i', 'm', 'i', 't'] from rfl] at hf2
            obtain ⟨c0, m5', rfl, hc0, htail⟩ := forall2_cons_right hf2
            · have hc0w : isWordChar c0 = true :=
                toLower_wordChar (by rw [hc0]; decide)
              have hlhs : multiAux true (limitBlock h ++ clampF h f' true r) = true := by
                show multiAux true ('L' :: ("IMIT ".toList ++ natToDigits h ++
                  clampF h f' true r)) = true
                exact multiAux_true_head (by decide) (by decide) _
              have hc0s : c0 ≠ ';' := by
                intro he
                subst he
                exact absurd hc0w (by decide)
              have hrhs : multiAux true ((c0 :: m5') ++ (wsp ++ (ds ++ r))) = true := by
                show multiAux true (c0 :: (m5' ++ (wsp ++ (ds ++ r)))) = true
                exact multiAux_true_head hc0s (word_not_ws hc0w) _
              rw [hlhs, hrhs]

theorem clampAll_multiStmt (h : Nat) (l : List Char) :
    multiStmt (clampAll h l) = multiStmt l :=
  clampF_multiAux h l.length false l false

/-! ### Clamping preserves the select-only check -/

theorem clampF_startsTok {tok : List Char} (h : Nat)
    (htok : ∀ x ∈ tok, isWordChar x = true) :
    ∀ (f : Nat) (l : List Char), startsTok tok l = true →
      startsTok tok (clampF h f true l) = true := by
  induction tok with
  | nil =>
    intro f l hst
    unfold startsTok at hst ⊢
    show (match some (clampF h f true l) with
      | some r => tokenAfter r
      | none => false) = true
    have hst2 : tokenAfter l = true := hst
    cases f with
    | zero => exact hst2
    | succ f' =>
      cases l with
      | nil => exact hst2
      | cons c t =>
        rw [clampF_cons_true]
        simpa [tokenAfter] using hst2
  | cons p ps ih =>
    intro f l hst
    cases l with
    | nil =>
      unfold startsTok stripPrefCI at hst
      simp at hst
    | cons c t =>
      have hcl : c.toLower = p := startsTok_head_lower hst
      have hw : isWordChar c = true :=
        toLower_wordChar (by rw [hcl]; exact htok p (by simp))
      cases f with
      | zero => exact hst
      | succ f' =>
        rw [clampF_cons_true, hw]
        have hst' : startsTok ps t = true := by
          unfold startsTok stripPrefCI at hst
          rw [if_pos hcl] at hst
          exact hst
        have hrec := ih (fun x hx => htok x (by simp [hx])) f' t hst'
        unfold startsTok stripPrefCI
        rw [if_pos hcl]
        exact hrec

theorem clampF_selectOnly (h : Nat) :
    ∀ (f : Nat) (l : List Char), selectOnly l = true →
      selectOnly (clampF h f false l) = true := by
  intro f
  induction f with
  | zero => intro l hsel; exact hsel
  | succ f' ih =>
    intro l hsel
    cases l with
    | nil => simp [selectOnly] at hsel
    | cons c t =>
      rw [selectOnly] at hsel
      by_cases hws : isWs c
      · rw [if_pos hws] at hsel
        have hla : limitAt (c :: t) = none := by
          apply limitAt_none_of_head
          rw [ws_toLower hws]
          intro he
          subst he
          exact absurd hws (by decide)
        rw [clampF_cons_none h f' hla, ws_not_word hws]
        show selectOnly (c :: clampF h f' false t) = true
        rw [selectOnly, if_pos hws]
        exact ih t hsel
      · rw [if_neg hws] at hsel
        have hlow : c.toLower = 'w' ∨ c.toLower = 's' := by
          rcases Bool.or_eq_true_iff.mp hsel with h1 | h1
          · rw [withTok_eq] at h1
            exact Or.inl (startsTok_head_lower h1)
          · rw [selTok_eq] at h1
            exact Or.inr (startsTok_head_lower h1)
        have hla : limitAt (c :: t) = none := by
          apply limitAt_none_of_head
          rcases hlow with h1 | h1 <;> rw [h1] <;> decide
        have hw : isWordChar c = true := by
          apply toLower_wordChar
          rcases hlow with h1 | h1 <;> rw [h1] <;> decide
        rw [clampF_cons_none h f' hla, hw]
        have hkey : c :: clampF h f' true t = clampF h (f' + 1) true (c :: t) := by
          rw [clampF_cons_true, hw]
        show selectOnly (c :: clampF h f' true t) = true
        rw [selectOnly, if_neg hws]
        rcases Bool.or_eq_true_iff.mp hsel with h1 | h1
        · refine Bool.or_eq_true_iff.mpr (Or.inl ?_)
          have := clampF_startsTok h withTok_words (f' + 1) (c :: t) h1
          rw [← hkey] at this
          exact this
        · refine Bool.or_eq_true_iff.mpr (Or.inr ?_)
          have := clampF_startsTok h selTok_words (f' + 1) (c :: t) h1
          rw [← hkey] at this
          exact this

theorem clampAll_selectOnly (h : Nat) {l : List Char}
    (hsel : selectOnly l = true) : selectOnly (clampAll h l) = true :=
  clampF_selectOnly h l.length l hsel

/-! ### A clamped text contains the rewritten clause -/

theorem clampF_contains (h : Nat) :
    ∀ (f : Nat) (b : Bool) (l : List Char) (n : Nat), l.length ≤ f →
      findLimitW b l = some n →
      containsSeq (limitBlock h) (clampF h f b l) = true := by
  intro f
  induction f with
  | zero =>
    intro b l n hlen hfl
    cases l with
    | nil => cases hfl
    | cons c t => simp at hlen
  | succ f' ih =>
    intro b l n hlen hfl
    cases l with
    | nil => cases hfl
    | cons c rest =>
      have hlen' : rest.length ≤ f' := by
        simpa using hlen
      by_cases hb : b
      · subst hb
        rw [clampF_cons_true]
        rw [findLimitW_cons_true] at hfl
        exact containsSeq_cons _ c (ih (isWordChar c) rest n hlen' hfl)
      · have hb' : b = false := by simpa using hb
        subst hb'
        rcases hla : limitAt (c :: rest) with _ | ⟨n', r⟩
        · rw [clampF_cons_none h f' hla]
          rw [findLimitW_cons_none hla] at hfl
          exact containsSeq_cons _ c (ih (isWordChar c) rest n hlen' hfl)
        · rw [clampF_cons_some h f' hla]
          exact containsSeq_of_isPrefOf (isPrefOf_append_self _ _)

theorem clampAll_contains {h : Nat} {l : List Char} {n : Nat}
    (hfl : findLimitW false l = some n) :
    containsSeq (limitBlock h) (clampAll h l) = true :=
  clampF_contains h l.length false l n (Nat.le_refl _) hfl

/-! ### Claim C1 -/

theorem addedMsg_ne_clampMsg (d h : Nat) : addedMsg d ≠ clampMsg h := by
  intro he
  unfold addedMsg clampMsg at he
  have h2 : "LIMIT ".toList ++ (natToDigits d ++ " added.".toList) =
      "LIMIT ".toList ++ ("clamped to ".toList ++ (natToDigits h ++ ".".toList)) := by
    simpa [List.append_assoc] using he
  have h3 := List.append_cancel_left h2
  obtain ⟨c, r, hnd, hdig⟩ := natToDigits_head d
  rw [hnd] at h3
  have hc : c = 'c' := by
    have := congrArg List.head? h3
    simpa using this
  subst hc
  exact absurd hdig (by decide)

/-- Claim C1 counterexample: the sanitized-query invariant fails in two ways.
Appending `LIMIT 100` to the accepted text `SELECT 1; ;` produces
`SELECT 1;  LIMIT 100`, which contains a semicolon followed by non-whitespace
(more than one statement by the validator's own criterion); and
`SELECT 1 LIMIT 10 LIMIT 5000` is returned unchanged under
`hardMaxRows = 1000` (the clamp examines only the first match), so the output
contains a row-limiting clause whose value `5000` exceeds `hardMaxRows`. -/
theorem claim_C1_counterexample :
    (sanitizeSql "SELECT 1; ;".toList false 100 1000 =
      .ok ("SELECT 1;  LIMIT 100".toList, ["LIMIT 100 added.".toList]) ∧
     multiStmt "SELECT 1;  LIMIT 100".toList = true) ∧
    (sanitizeSql "SELECT 1 LIMIT 10 LIMIT 5000".toList false 100 1000 =
      .ok ("SELECT 1 LIMIT 10 LIMIT 5000".toList, []) ∧
     existsClauseGT 1000 false "SELECT 1 LIMIT 10 LIMIT 5000".toList = true) :=
  ⟨⟨by decide, by decide⟩, ⟨by decide, by decide⟩⟩

/-- Claim C1 (amended): whenever `sanitize_sql` succeeds, the sanitized text
begins with `WITH` or `SELECT` (case-insensitively, after possible leading
whitespace — hence non-empty) unless `allow_non_select`; when no clamp warning
was emitted, its first numeric row-limiting clause, if any, is at most
`hardMaxRows`; when a clamp warning was emitted, the text contains the
rewritten clause `LIMIT hardMaxRows`; and the text contains exactly one
statement whenever no `LIMIT` clause was appended.  (The original claim's
"exactly one statement" and "every row-limiting clause" parts fail, as the
counterexample shows.) -/
theorem claim_C1_amended {x : List Char} {a : Bool} {d h : Nat}
    {t : List Char} {w : List (List Char)}
    (hok : sanitizeSql x a d h = .ok (t, w)) :
    (a = false → selectOnly t = true) ∧
    (clampMsg h ∉ w → ∀ n, findLimitW false t = some n → n ≤ h) ∧
    (clampMsg h ∈ w → containsSeq (limitBlock h) t = true) ∧
    (addedMsg d ∉ w → multiStmt t = false) := by
  obtain ⟨hm, hs, hcase⟩ := sanitizeSql_ok_inv hok
  have hsel : a = false → selectOnly (preprocess x) = true := by
    intro ha
    subst ha
    simpa using hs
  rcases hcase with ⟨hl, hsub⟩ | ⟨hl, hsub⟩
  · rcases hsub with ⟨n, hfl, hn, rfl, rfl⟩ | ⟨hno, rfl, rfl⟩
    · refine ⟨?_, ?_, ?_, ?_⟩
      · intro ha
        exact clampAll_selectOnly h (hsel ha)
      · intro hnm
        exact absurd (by simp) hnm
      · intro _
        exact clampAll_contains hfl
      · intro _
        rw [clampAll_multiStmt]
        exact hm
    · refine ⟨hsel, ?_, ?_, ?_⟩
      · intro _ n hfl
        exact hno n hfl
      · intro hmem
        simp at hmem
      · intro _
        exact hm
  · rcases hsub with ⟨n, hfl, hn, rfl, rfl⟩ | ⟨hno, rfl, rfl⟩
    · refine ⟨?_, ?_, ?_, ?_⟩
      · intro ha
        exact clampAll_selectOnly h (selectOnly_appendLimit (hsel ha) d)
      · intro hnm
        exact absurd (by simp) hnm
      · intro _
        exact clampAll_contains hfl
      · intro hnm
        exact absurd (by simp) hnm
    · refine ⟨?_, ?_, ?_, ?_⟩
      · intro ha
        exact selectOnly_appendLimit (hsel ha) d
      · intro _ n hfl
        exact hno n hfl
      · intro hmem
        simp at hmem
        exact absurd hmem.symm (addedMsg_ne_clampMsg d h)
      · intro hnm
        exact absurd (by simp) hnm

/-- Witness for the amended C1 on the clamped example
`SELECT * FROM t LIMIT 5000` with `hardMaxRows = 1000`. -/
theorem claim_C1_witness :
    selectOnly "SELECT * FROM t LIMIT 1000".toList = true ∧
    containsSeq (limitBlock 1000) "SELECT * FROM t LIMIT 1000".toList = true ∧
    multiStmt "SELECT * FROM t LIMIT 1000".toList = false := by
  have h := claim_C1_amended (x := "SELECT * FROM t LIMIT 5000".toList)
    (a := false) (d := 100) (h := 1000)
    (t := "SELECT * FROM t LIMIT 1000".toList)
    (w := ["LIMIT clamped to 1000.".toList]) (by decide)
  exact ⟨h.1 rfl, h.2.2.1 (by decide), h.2.2.2 (by decide)⟩

/-! ### Claim C6 -/

/-- Claim C6: for every accepted input whose (trimmed) text carries a
detected row-limiting clause with first numeric value `n`: if
`n > hardMaxRows` the clauses are rewritten by the clamp (the output contains
`LIMIT hardMaxRows`) and exactly the clamp warning is recorded; if
`n ≤ hardMaxRows` the output text is the trimmed input unchanged with no
warnings.  (`"unchanged"` is relative to the step-1 preprocessing, which the
spec applies before row-limit enforcement.) -/
theorem claim_C6_existing_clause {x : List Char} {a : Bool} {d h n : Nat}
    (hm : multiStmt (preprocess x) = false)
    (hsel : a = true ∨ selectOnly (preprocess x) = true)
    (hl : hasLimit (preprocess x) = true)
    (hfl : findLimitW false (preprocess x) = some n) :
    (h < n → sanitizeSql x a d h =
        .ok (clampAll h (preprocess x), [clampMsg h]) ∧
      containsSeq (limitBlock h) (clampAll h (preprocess x)) = true) ∧
    (n ≤ h → sanitizeSql x a d h = .ok (preprocess x, [])) := by
  have hcond : (!a && !selectOnly (preprocess x)) = false := by
    rcases hsel with rfl | h1
    · simp
    · simp [h1]
  constructor
  · intro hn
    constructor
    · simp [sanitizeSql, hm, hcond, hl, hfl, hn]
    · exact clampAll_contains hfl
  · intro hn
    simp [sanitizeSql, hm, hcond, hl, hfl, Nat.not_lt.mpr hn]

/-- Witness for C6: the spec's example `SELECT * FROM t LIMIT 5000` is
clamped to `LIMIT 1000` with the clamp warning, and `SELECT * FROM t
LIMIT 50` passes through unchanged with no warning. -/
theorem claim_C6_witness :
    sanitizeSql "SELECT * FROM t LIMIT 5000".toList false 100 1000 =
      .ok ("SELECT * FROM t LIMIT 1000".toList,
        ["LIMIT clamped to 1000.".toList]) ∧
    sanitizeSql "SELECT * FROM t LIMIT 50".toList false 100 1000 =
      .ok ("SELECT * FROM t LIMIT 50".toList, []) := by
  constructor
  · have h := (claim_C6_existing_clause
      (x := "SELECT * FROM t LIMIT 5000".toList) (a := false) (d := 100)
      (h := 1000) (n := 5000) (by decide) (Or.inr (by decide)) (by decide)
      (by decide)).1 (by decide)
    rw [h.1]
    decide
  · have h := (claim_C6_existing_clause
      (x := "SELECT * FROM t LIMIT 50".toList) (a := false) (d := 100)
      (h := 1000) (n := 50) (by decide) (Or.inr (by decide)) (by decide)
      (by decide)).2 (by decide)
    rw [h]
    decide

/-! ### The appended text always carries a detected limit clause -/

theorem normSkip_LIMIT (ds : List Char) :
    normSkip ("LIMIT ".toList ++ ds) =
      'l' :: 'i' :: 'm' :: 'i' :: 't' :: ' ' :: normSkip ds := by
  show normSkip ('L' :: 'I' :: 'M' :: 'I' :: 'T' :: ' ' :: ds) = _
  rw [normSkip, if_neg (by decide)]
  rw [normWs, if_neg (by decide)]
  rw [normWs, if_neg (by decide)]
  rw [normWs, if_neg (by decide)]
  rw [normWs, if_neg (by decide)]
  rw [normWs, if_pos (by decide)]
  rfl

theorem norm_contains_pair :
    ∀ (s ds : List Char),
      containsSeq " limit ".toList
        (normWs (s ++ ' ' :: ("LIMIT ".toList ++ ds))) = true ∧
      containsSeq " limit ".toList
        (' ' :: normSkip (s ++ ' ' :: ("LIMIT ".toList ++ ds))) = true := by
  intro s
  induction s with
  | nil =>
    intro ds
    constructor
    · show containsSeq " limit ".toList
        (normWs (' ' :: ("LIMIT ".toList ++ ds))) = true
      rw [normWs, if_pos (by decide), normSkip_LIMIT]
      exact containsSeq_of_isPrefOf (isPrefOf_append_self " limit ".toList _)
    · show containsSeq " limit ".toList
        (' ' :: normSkip (' ' :: ("LIMIT ".toList ++ ds))) = true
      rw [normSkip, if_pos (by decide), normSkip_LIMIT]
      exact containsSeq_of_isPrefOf (isPrefOf_append_self " limit ".toList _)
  | cons c s' ih =>
    intro ds
    constructor
    · show containsSeq " limit ".toList
        (normWs (c :: (s' ++ ' ' :: ("LIMIT ".toList ++ ds)))) = true
      rw [normWs]
      by_cases hw : isWs c
      · rw [if_pos hw]
        exact (ih ds).2
      · rw [if_neg hw]
        exact containsSeq_cons _ _ (ih ds).1
    · show containsSeq " limit ".toList
        (' ' :: normSkip (c :: (s' ++ ' ' :: ("LIMIT ".toList ++ ds)))) = true
      rw [normSkip]
      by_cases hw : isWs c
      · rw [if_pos hw]
        exact (ih ds).2
      · rw [if_neg hw]
        exact containsSeq_cons _ _ (containsSeq_cons _ _ (ih ds).1)

theorem dropWhile_append_ne {p : Char → Bool} {a : List Char}
    (h : a.dropWhile p ≠ []) (b : List Char) :
    (a ++ b).dropWhile p = a.dropWhile p ++ b := by
  rw [List.dropWhile_append]
  rcases hd : a.dropWhile p with _ | ⟨y, ys⟩
  · exact absurd hd h
  · simp

theorem lastNonWs_cons {Z : List Char} {x : Char}
    (h : lastNonWs Z = some x) (a : Char) : lastNonWs (a :: Z) = some x := by
  unfold lastNonWs at h ⊢
  rw [List.reverse_cons]
  have hne : Z.reverse.dropWhile isWs ≠ [] := by
    intro he
    rw [he] at h
    cases h
  rw [dropWhile_append_ne hne]
  rcases hd : Z.reverse.dropWhile isWs with _ | ⟨y, ys⟩
  · exact absurd hd hne
  · rw [hd] at h
    simpa using h

theorem lastNonWs_pair :
    ∀ (y : List Char) (d : Char), d.isDigit = true →
      lastNonWs (normWs (y ++ [d])) = some d ∧
      lastNonWs (' ' :: normSkip (y ++ [d])) = some d := by
  intro y
  induction y with
  | nil =>
    intro d hd
    have hnw : isWs d = false := digit_not_ws hd
    have hlow : d.toLower = d := digit_toLower hd
    have h1 : lastNonWs (normWs [d]) = some d := by
      show lastNonWs (normWs (d :: [])) = some d
      rw [normWs, if_neg (by simp [hnw]), hlow]
      show ((d :: normWs []).reverse.dropWhile isWs).head? = some d
      rw [show normWs [] = [] from rfl]
      simp [List.dropWhile, hnw]
    refine ⟨h1, ?_⟩
    have h2 : lastNonWs (normSkip [d]) = some d := by
      show lastNonWs (normSkip (d :: [])) = some d
      rw [normSkip, if_neg (by simp [hnw]), hlow]
      show ((d :: normWs []).reverse.dropWhile isWs).head? = some d
      rw [show normWs [] = [] from rfl]
      simp [List.dropWhile, hnw]
    exact lastNonWs_cons h2 ' '
  | cons c y' ih =>
    intro d hd
    constructor
    · show lastNonWs (normWs (c :: (y' ++ [d]))) = some d
      rw [normWs]
      by_cases hw : isWs c
      · rw [if_pos hw]
        exact (ih d hd).2
      · rw [if_neg hw]
        exact lastNonWs_cons (ih d hd).1 _
    · show lastNonWs (' ' :: normSkip (c :: (y' ++ [d]))) = some d
      rw [normSkip]
      by_cases hw : isWs c
      · rw [if_pos hw]
        exact (ih d hd).2
      · rw [if_neg hw]
        exact lastNonWs_cons (lastNonWs_cons (ih d hd).1 _) ' '

theorem hasLimit_appendLimit (s : List Char) (d : Nat) :
    hasLimit (appendLimit s d) = true := by
  unfold hasLimit appendLimit
  have hassoc : rstripP (fun c => c = ';') (rstripP isWs s) ++ " LIMIT ".toList ++
      natToDigits d =
      rstripP (fun c => c = ';') (rstripP isWs s) ++
        (' ' :: ("LIMIT ".toList ++ natToDigits d)) := by
    rw [List.append_assoc]
    rfl
  rw [hassoc]
  dsimp only
  have hc := (norm_contains_pair (rstripP (fun c => c = ';') (rstripP isWs s))
    (natToDigits d)).1
  rw [hc]
  obtain ⟨c0, r0, hnd, _⟩ := natToDigits_head d
  have hne : natToDigits d ≠ [] := by rw [hnd]; simp
  rcases List.eq_nil_or_concat' (natToDigits d) with he | ⟨nd', dl, hdl⟩
  · exact absurd he hne
  · have hdig : dl.isDigit = true :=
      natToDigits_all_digit d dl (by rw [hdl]; simp)
    have hsplit : rstripP (fun c => c = ';') (rstripP isWs s) ++
        (' ' :: ("LIMIT ".toList ++ natToDigits d)) =
        (rstripP (fun c => c = ';') (rstripP isWs s) ++
          (' ' :: ("LIMIT ".toList ++ nd'))) ++ [dl] := by
      rw [hdl]
      simp
    rw [hsplit]
    have hl := (lastNonWs_pair (rstripP (fun c => c = ';') (rstripP isWs s) ++
      (' ' :: ("LIMIT ".toList ++ nd'))) dl hdig).1
    rw [hl]
    simp [digit_ne_rparen hdig]

/-! ### Claim C7 -/

/-- Claim C7 counterexample: idempotence fails.  For the accepted input
`` `  select 1` `` the sanitized text `"  select 1 LIMIT 100"` keeps inner
leading whitespace (uncovered by the one-shot strip), and re-validating it
strips that whitespace, returning different text; and for the accepted input
`"select 1; ;"` the sanitized text `"select 1;  LIMIT 100"` no longer passes
the multi-statement check, so re-validation fails outright. -/
theorem claim_C7_counterexample :
    (sanitizeSql "`  select 1`".toList false 100 1000 =
      .ok ("  select 1 LIMIT 100".toList, ["LIMIT 100 added.".toList]) ∧
     sanitizeSql "  select 1 LIMIT 100".toList false 100 1000 =
      .ok ("select 1 LIMIT 100".toList, []) ∧
     "select 1 LIMIT 100".toList ≠ "  select 1 LIMIT 100".toList) ∧
    (sanitizeSql "select 1; ;".toList false 100 1000 =
      .ok ("select 1;  LIMIT 100".toList, ["LIMIT 100 added.".toList]) ∧
     sanitizeSql "select 1;  LIMIT 100".toList false 100 1000 =
      .error multiMsg) :=
  ⟨⟨by decide, by decide, by decide⟩, ⟨by decide, by decide⟩⟩

/-! ### Locating the appended clause: scan lemmas -/

theorem limitAt_eq_limitTail (l : List Char) :
    limitAt l = match stripPrefCI limitTok l with
      | none => none
      | some r1 => limitTail r1 := rfl

theorem stripPrefCI_append_cases (tok : List Char) :
    ∀ x : List Char,
      (∃ r, stripPrefCI tok x = some r ∧
        ∀ z, stripPrefCI tok (x ++ z) = some (r ++ z)) ∨
      (∃ tok', tok' ≠ [] ∧ (∀ q ∈ tok', q ∈ tok) ∧
        ∀ z, stripPrefCI tok (x ++ z) = stripPrefCI tok' z) ∨
      (∀ z, stripPrefCI tok (x ++ z) = none) := by
  induction tok with
  | nil =>
    intro x
    exact Or.inl ⟨x, rfl, fun z => rfl⟩
  | cons p ps ih =>
    intro x
    cases x with
    | nil =>
      refine Or.inr (Or.inl ⟨p :: ps, by simp, fun q hq => hq, fun z => ?_⟩)
      rfl
    | cons c x' =>
      by_cases hc : c.toLower = p
      · rcases ih x' with ⟨r, hr, hz⟩ | ⟨tok', hne, hsub, hz⟩ | hz
        · refine Or.inl ⟨r, ?_, fun z => ?_⟩
          · rw [stripPrefCI, if_pos hc]
            exact hr
          · show stripPrefCI (p :: ps) (c :: (x' ++ z)) = _
            rw [stripPrefCI, if_pos hc]
            exact hz z
        · refine Or.inr (Or.inl ⟨tok', hne, fun q hq => by simp [hsub q hq], fun z => ?_⟩)
          show stripPrefCI (p :: ps) (c :: (x' ++ z)) = _
          rw [stripPrefCI, if_pos hc]
          exact hz z
        · refine Or.inr (Or.inr fun z => ?_)
          show stripPrefCI (p :: ps) (c :: (x' ++ z)) = none
          rw [stripPrefCI, if_pos hc]
          exact hz z
      · refine Or.inr (Or.inr fun z => ?_)
        show stripPrefCI (p :: ps) (c :: (x' ++ z)) = none
        rw [stripPrefCI, if_neg hc]

theorem takeWhile_all {p : Char → Bool} {l : List Char}
    (h : ∀ x ∈ l, p x = true) : l.takeWhile p = l := by
  induction l with
  | nil => rfl
  | cons c cs ih =>
    rw [List.takeWhile_cons_of_pos (h c (by simp)),
      ih (fun x hx => h x (by simp [hx]))]

theorem dropWhile_all {p : Char → Bool} {l : List Char}
    (h : ∀ x ∈ l, p x = true) : l.dropWhile p = [] := by
  induction l with
  | nil => rfl
  | cons c cs ih =>
    rw [List.dropWhile_cons_of_pos (h c (by simp))]
    exact ih (fun x hx => h x (by simp [hx]))

theorem limitTail_fst (r1 : List Char) :
    (limitTail r1).map Prod.fst =
      if r1.takeWhile isWs ≠ [] ∧
          (r1.dropWhile isWs).takeWhile Char.isDigit ≠ [] ∧
          tokenAfter ((r1.dropWhile isWs).dropWhile Char.isDigit) = true
      then some (digitsVal ((r1.dropWhile isWs).takeWhile Char.isDigit))
      else none := by
  unfold limitTail
  rcases h1 : r1.takeWhile isWs with _ | ⟨a, as⟩
  · simp
  · dsimp only
    rcases h2 : (r1.dropWhile isWs).takeWhile Char.isDigit with _ | ⟨b, bs⟩
    · simp [h2]
    · dsimp only
      rcases h3 : (r1.dropWhile isWs).dropWhile Char.isDigit with _ | ⟨c3, cs3⟩
      · simp [h2, h3, tokenAfter]
      · by_cases hw : isWordChar c3
        · simp [h2, h3, tokenAfter, hw]
        · simp [h2, h3, tokenAfter, hw]

theorem limitTail_fst_append (r rb : List Char)
    (hrb : ∀ c cs, rb = c :: cs → isWs c = false ∧ c.isDigit = false) :
    (limitTail (r ++ ' ' :: rb)).map Prod.fst =
      (limitTail (r ++ [' '])).map Prod.fst := by
  have hrb2 : rb.takeWhile isWs = [] := by
    cases hr : rb with
    | nil => rfl
    | cons c cs => rw [List.takeWhile_cons_of_neg (by simp [(hrb c cs hr).1])]
  have hrbdig : rb.takeWhile Char.isDigit = [] := by
    cases hr : rb with
    | nil => rfl
    | cons c cs => rw [List.takeWhile_cons_of_neg (by simp [(hrb c cs hr).2])]
  rw [limitTail_fst, limitTail_fst]
  by_cases hallws : ∀ x ∈ r, isWs x = true
  · have e1 : (r ++ ' ' :: rb).dropWhile isWs = rb.dropWhile isWs := by
      rw [List.dropWhile_append_of_pos hallws,
        List.dropWhile_cons_of_pos (p := isWs) (by decide)]
    have e2 : (r ++ [' ']).dropWhile isWs = [] := by
      rw [List.dropWhile_append_of_pos hallws]
      rfl
    have e3 : (rb.dropWhile isWs).takeWhile Char.isDigit = [] := by
      cases hr : rb with
      | nil => rfl
      | cons c cs =>
        rw [List.dropWhile_cons_of_neg (by simp [(hrb c cs hr).1]), ← hr, hrbdig]
    rw [e1, e2, e3]
    simp
  · have hdw : r.dropWhile isWs ≠ [] := by
      rw [Ne, List.dropWhile_eq_nil_iff]
      exact hallws
    rcases hdwe : r.dropWhile isWs with _ | ⟨c0, r2⟩
    · exact absurd hdwe hdw
    · have hc0 : isWs c0 = false := by
        have h5 := List.head?_dropWhile_not isWs r
        rw [hdwe] at h5
        simpa using h5
      have hrsplit : r = r.takeWhile isWs ++ (c0 :: r2) := by
        conv_lhs => rw [← List.takeWhile_append_dropWhile (p := isWs) (l := r)]
        rw [hdwe]
      have htwmem : ∀ x ∈ r.takeWhile isWs, isWs x = true :=
        fun x hx => List.mem_takeWhile_imp hx
      have htw : ∀ z : List Char, (r ++ z).takeWhile isWs = r.takeWhile isWs := by
        intro z
        conv_lhs => rw [hrsplit]
        rw [List.append_assoc, List.takeWhile_append_of_pos htwmem,
          List.cons_append, List.takeWhile_cons_of_neg (by simp [hc0])]
        simp
      have hdw2 : ∀ z : List Char, (r ++ z).dropWhile isWs = c0 :: (r2 ++ z) := by
        intro z
        conv_lhs => rw [hrsplit]
        rw [List.append_assoc, List.dropWhile_append_of_pos htwmem,
          List.cons_append, List.dropWhile_cons_of_neg (by simp [hc0])]
      rw [htw (' ' :: rb), htw [' '], hdw2 (' ' :: rb), hdw2 [' ']]
      by_cases hd0 : c0.isDigit = true
      · rcases hdd : (c0 :: r2).dropWhile Char.isDigit with _ | ⟨c1, r3⟩
        · have hall : ∀ x ∈ c0 :: r2, x.isDigit = true :=
            List.dropWhile_eq_nil_iff.mp hdd
          have f1 : ∀ z : List Char, z.takeWhile Char.isDigit = [] →
              (c0 :: (r2 ++ z)).takeWhile Char.isDigit = c0 :: r2 := by
            intro z hz
            rw [show c0 :: (r2 ++ z) = (c0 :: r2) ++ z from rfl,
              List.takeWhile_append_of_pos hall, hz]
            simp
          have f2 : ∀ z : List Char,
              (c0 :: (r2 ++ z)).dropWhile Char.isDigit =
                z.dropWhile Char.isDigit := by
            intro z
            rw [show c0 :: (r2 ++ z) = (c0 :: r2) ++ z from rfl,
              List.dropWhile_append_of_pos hall]
          rw [f1 (' ' :: rb) (List.takeWhile_cons_of_neg (by decide)),
            f1 [' '] rfl, f2 (' ' :: rb), f2 [' ']]
          rw [show (' ' :: rb).dropWhile Char.isDigit = ' ' :: rb from
            List.dropWhile_cons_of_neg (by decide)]
          rw [show ([' '] : List Char).dropWhile Char.isDigit = [' '] from rfl]
          simp [tokenAfter]
        · have hc1 : c1.isDigit = false := by
            have h5 := List.head?_dropWhile_not Char.isDigit (c0 :: r2)
            rw [hdd] at h5
            simpa using h5
          have hsplit2 : c0 :: r2 =
              (c0 :: r2).takeWhile Char.isDigit ++ (c1 :: r3) := by
            conv_lhs => rw [← List.takeWhile_append_dropWhile
              (p := Char.isDigit) (l := c0 :: r2)]
            rw [hdd]
          have hddmem : ∀ x ∈ (c0 :: r2).takeWhile Char.isDigit,
              x.isDigit = true := fun x hx => List.mem_takeWhile_imp hx
          have g1 : ∀ z : List Char,
              (c0 :: (r2 ++ z)).takeWhile Char.isDigit =
                (c0 :: r2).takeWhile Char.isDigit := by
            intro z
            rw [show c0 :: (r2 ++ z) = (c0 :: r2) ++ z from rfl]
            conv_lhs => rw [hsplit2]
            rw [List.append_assoc, List.takeWhile_append_of_pos hddmem,
              List.cons_append,
              List.takeWhile_cons_of_neg (p := Char.isDigit) (l := r3 ++ z)
                (by simp [hc1])]
            simp
          have g2 : ∀ z : List Char,
              (c0 :: (r2 ++ z)).dropWhile Char.isDigit = c1 :: (r3 ++ z) := by
            intro z
            rw [show c0 :: (r2 ++ z) = (c0 :: r2) ++ z from rfl]
            conv_lhs => rw [hsplit2]
            rw [List.append_assoc, List.dropWhile_append_of_pos hddmem,
              List.cons_append, List.dropWhile_cons_of_neg (by simp [hc1])]
          rw [g1 (' ' :: rb), g1 [' '], g2 (' ' :: rb), g2 [' ']]
          simp [tokenAfter]
      · have hd0f : c0.isDigit = false := by simpa using hd0
        rw [show (c0 :: (r2 ++ ' ' :: rb)).takeWhile Char.isDigit = [] from
          List.takeWhile_cons_of_neg (by simp [hd0f])]
        rw [show (c0 :: (r2 ++ [' '])).takeWhile Char.isDigit = [] from
          List.takeWhile_cons_of_neg (by simp [hd0f])]
        simp

theorem limitAt_fst_append (l rb : List Char)
    (hrb : ∀ c cs, rb = c :: cs → isWs c = false ∧ c.isDigit = false) :
    (limitAt (l ++ ' ' :: rb)).map Prod.fst =
      (limitAt (l ++ [' '])).map Prod.fst := by
  rw [limitAt_eq_limitTail, limitAt_eq_limitTail]
  rcases stripPrefCI_append_cases limitTok l with
    ⟨r, _, hz⟩ | ⟨tok', hne, hsub, hz⟩ | hz
  · rw [hz (' ' :: rb), hz [' ']]
    dsimp only
    exact limitTail_fst_append r rb hrb
  · rw [hz (' ' :: rb), hz [' ']]
    rcases tok' with _ | ⟨q, qs⟩
    · exact absurd rfl hne
    · have hq : (' ' : Char).toLower ≠ q :=
        nonword_toLower_ne (by decide) (limitTok_words q (hsub q (by simp)))
      rw [show stripPrefCI (q :: qs) (' ' :: rb) = none from by
          rw [stripPrefCI, if_neg hq],
        show stripPrefCI (q :: qs) [' '] = none from by
          rw [stripPrefCI, if_neg hq]]
  · rw [hz (' ' :: rb), hz [' ']]

theorem findLimitW_append_sp {rb : List Char}
    (hrb : ∀ c cs, rb = c :: cs → isWs c = false ∧ c.isDigit = false) :
    ∀ (s : List Char) (b : Bool),
      findLimitW b (s ++ ' ' :: rb) =
        match findLimitW b (s ++ [' ']) with
        | some v => some v
        | none => findLimitW false rb := by
  intro s
  induction s with
  | nil =>
    intro b
    have hsp : limitAt (' ' :: rb) = none :=
      limitAt_none_of_head rb (by decide)
    have hsp2 : limitAt [' '] = none :=
      limitAt_none_of_head [] (by decide)
    cases b
    · show findLimitW false (' ' :: rb) = _
      rw [findLimitW_cons_none hsp,
        show findLimitW false ([] ++ [' ']) = none from by
          show findLimitW false [' '] = none
          rw [findLimitW_cons_none hsp2]
          rfl]
      rfl
    · show findLimitW true (' ' :: rb) = _
      rw [findLimitW_cons_true,
        show findLimitW true ([] ++ [' ']) = none from rfl]
      rfl
  | cons c s ih =>
    intro b
    cases b
    · have hfst := limitAt_fst_append (c :: s) rb hrb
      simp only [List.cons_append] at hfst
      show findLimitW false (c :: (s ++ ' ' :: rb)) = _
      rcases h1 : limitAt (c :: (s ++ [' '])) with _ | ⟨n, r⟩
      · have h2 : limitAt (c :: (s ++ ' ' :: rb)) = none := by
          rw [h1] at hfst
          rcases h3 : limitAt (c :: (s ++ ' ' :: rb)) with _ | p
          · rfl
          · rw [h3] at hfst
            simp at hfst
        rw [findLimitW_cons_none h2, ih (isWordChar c),
          show findLimitW false ((c :: s) ++ [' ']) =
              findLimitW (isWordChar c) (s ++ [' ']) from by
            simp only [List.cons_append]
            exact findLimitW_cons_none h1]
      · rcases h3 : limitAt (c :: (s ++ ' ' :: rb)) with _ | ⟨n', r'⟩
        · rw [h1, h3] at hfst
          simp at hfst
        · rw [h1, h3] at hfst
          simp at hfst
          rw [findLimitW_cons_some h3,
            show findLimitW false ((c :: s) ++ [' ']) = some n from by
              simp only [List.cons_append]
              exact findLimitW_cons_some h1]
          rw [hfst]
    · show findLimitW true (c :: (s ++ ' ' :: rb)) = _
      rw [findLimitW_cons_true, ih (isWordChar c),
        show findLimitW true ((c :: s) ++ [' ']) =
            findLimitW (isWordChar c) (s ++ [' ']) from by
          simp only [List.cons_append]
          exact findLimitW_cons_true c (s ++ [' '])]

theorem findLimitW_appendLimit (s0 : List Char) (d : Nat)
    (h0 : findLimitW false (s0 ++ [' ']) = none) :
    findLimitW false (s0 ++ " LIMIT ".toList ++ natToDigits d) = some d := by
  have hndd : ∀ x ∈ natToDigits d, x.isDigit = true := natToDigits_all_digit d
  have hrb : ∀ c cs, "LIMIT ".toList ++ natToDigits d = c :: cs →
      isWs c = false ∧ c.isDigit = false := by
    intro c cs hh
    rw [show "LIMIT ".toList = 'L' :: "IMIT ".toList from rfl,
      List.cons_append] at hh
    injection hh with h1 _
    subst h1
    exact ⟨by decide, by decide⟩
  have hne : natToDigits d ≠ [] := by
    obtain ⟨c, r, hc, _⟩ := natToDigits_head d
    rw [hc]
    simp
  have hstrip : stripPrefCI limitTok ("LIMIT ".toList ++ natToDigits d) =
      some (' ' :: natToDigits d) := by
    have h1 : stripPrefCI limitTok "LIMIT".toList = some [] := by decide
    rw [show "LIMIT ".toList ++ natToDigits d =
        "LIMIT".toList ++ (' ' :: natToDigits d) from rfl]
    simpa using stripPrefCI_append h1 (' ' :: natToDigits d)
  have hla : limitAt ("LIMIT ".toList ++ natToDigits d) = some (d, []) := by
    rw [limitAt_eq_limitTail, hstrip]
    dsimp only
    unfold limitTail
    rcases hnd : natToDigits d with _ | ⟨c, cs⟩
    · exact absurd hnd hne
    · have hcd : c.isDigit = true :=
        hndd c (by rw [hnd]; exact List.mem_cons_self c cs)
      have hall : ∀ x ∈ c :: cs, x.isDigit = true := by
        intro x hx
        exact hndd x (by rw [hnd]; exact hx)
      have t1 : (' ' :: c :: cs).takeWhile isWs = [' '] := by
        rw [List.takeWhile_cons_of_pos (by decide),
          List.takeWhile_cons_of_neg (by simp [digit_not_ws hcd])]
      have t2 : (' ' :: c :: cs).dropWhile isWs = c :: cs := by
        rw [List.dropWhile_cons_of_pos (by decide),
          List.dropWhile_cons_of_neg (by simp [digit_not_ws hcd])]
      have t3 : (c :: cs).takeWhile Char.isDigit = c :: cs := takeWhile_all hall
      have t4 : (c :: cs).dropWhile Char.isDigit = [] := dropWhile_all hall
      rw [t1]
      dsimp only
      rw [t2, t3]
      dsimp only
      rw [t4]
      dsimp only
      rw [← hnd, digitsVal_natToDigits]
  have hmain := findLimitW_append_sp hrb s0 false
  rw [show s0 ++ " LIMIT ".toList ++ natToDigits d =
      s0 ++ ' ' :: ("LIMIT ".toList ++ natToDigits d) from by
    rw [List.append_assoc]
    rfl]
  rw [hmain, h0]
  dsimp only
  rw [show "LIMIT ".toList ++ natToDigits d =
    'L' :: ("IMIT ".toList ++ natToDigits d) from rfl] at hla
  rw [show "LIMIT ".toList ++ natToDigits d =
    'L' :: ("IMIT ".toList ++ natToDigits d) from rfl]
  exact findLimitW_cons_some hla

/-- Claim C5: refuted as stated.  The input
`SELECT * FROM (SELECT 1 LIMIT 5000)` is accepted and has no row-limiting
clause in the sense of the code's detection (the normalised text ends with a
parenthesis, so `has_limit` is false), yet sanitisation emits two warnings,
and the appended clause is rewritten to `LIMIT hardMaxRows` rather than
`LIMIT defaultLimit`: the subquery's `LIMIT 5000` is the first regex match,
it exceeds `hardMaxRows`, and the substitution rewrites every match,
including the clause just appended. -/
theorem claim_C5_counterexample :
    sanitizeSql "SELECT * FROM (SELECT 1 LIMIT 5000)".toList false 100 1000 =
      .ok ("SELECT * FROM (SELECT 1 LIMIT 1000) LIMIT 1000".toList,
        ["LIMIT 100 added.".toList, "LIMIT clamped to 1000.".toList]) := by
  decide

/-- Claim C5 (amended): for every accepted input with no detected
row-limiting clause and no `\blimit\s+(\d+)\b` match anywhere in the
(whitespace- and semicolon-trimmed) text, provided `defaultLimit ≤
hardMaxRows`, sanitisation appends exactly one clause `LIMIT defaultLimit`
to the trimmed text and emits exactly the one warning `LIMIT
<defaultLimit> added.`. -/
theorem claim_C5_amended {x : List Char} {a : Bool} {d h : Nat}
    (hdh : d ≤ h)
    (hm : multiStmt (preprocess x) = false)
    (hsel : a = true ∨ selectOnly (preprocess x) = true)
    (hnl : hasLimit (preprocess x) = false)
    (hno : findLimitW false
        (rstripP (fun c => c = ';') (rstripP isWs (preprocess x)) ++ [' '])
        = none) :
    sanitizeSql x a d h = .ok (appendLimit (preprocess x) d, [addedMsg d]) := by
  have hcond : (!a && !selectOnly (preprocess x)) = false := by
    rcases hsel with rfl | h1
    · simp
    · simp [h1]
  have hfl : findLimitW false (appendLimit (preprocess x) d) = some d := by
    unfold appendLimit
    exact findLimitW_appendLimit _ d hno
  simp [appendLimit] at hfl
  simp [sanitizeSql, hm, hcond, hnl, hfl, Nat.not_lt.mpr hdh, appendLimit]

/-- Witness for C5: the spec's example `SELECT * FROM t` with
`defaultLimit = 100`, `hardMaxRows = 1000` yields
`SELECT * FROM t LIMIT 100` with the single warning `LIMIT 100 added.`,
by the amended theorem. -/
theorem claim_C5_witness :
    sanitizeSql "SELECT * FROM t".toList false 100 1000 =
      .ok ("SELECT * FROM t LIMIT 100".toList,
        ["LIMIT 100 added.".toList]) := by
  have hh := claim_C5_amended (x := "SELECT * FROM t".toList) (a := false)
    (d := 100) (h := 1000) (by decide) (by decide) (Or.inr (by decide))
    (by decide) (by decide)
  rw [hh]
  decide

theorem limitAt_of_decomp {m5 wsp ds r : List Char}
    (hf : List.Forall₂ (fun c p => c.toLower = p) m5 limitTok)
    (hw : wsp ≠ []) (hwa : ∀ x ∈ wsp, isWs x = true)
    (hd : ds ≠ []) (hda : ∀ x ∈ ds, x.isDigit = true)
    (hr : tokenAfter r = true) :
    limitAt (m5 ++ (wsp ++ (ds ++ r))) = some (digitsVal ds, r) := by
  have hstrip : stripPrefCI limitTok (m5 ++ (wsp ++ (ds ++ r))) =
      some (wsp ++ (ds ++ r)) := by
    simpa using stripPrefCI_append (forall2_stripPrefCI hf) (wsp ++ (ds ++ r))
  rcases wsp with _ | ⟨w0, ws0⟩
  · exact absurd rfl hw
  rcases ds with _ | ⟨d0, ds0⟩
  · exact absurd rfl hd
  have hd0 : d0.isDigit = true := hda d0 (by simp)
  have hrd : ∀ c cs, r = c :: cs → isWordChar c = false := by
    intro c cs hc
    rw [hc] at hr
    simpa [tokenAfter] using hr
  have t1 : ((w0 :: ws0) ++ ((d0 :: ds0) ++ r)).takeWhile isWs = w0 :: ws0 := by
    rw [List.takeWhile_append_of_pos hwa,
      show ((d0 :: ds0) : List Char) ++ r = d0 :: (ds0 ++ r) from rfl,
      List.takeWhile_cons_of_neg (by simp [digit_not_ws hd0])]
    simp
  have t2 : ((w0 :: ws0) ++ ((d0 :: ds0) ++ r)).dropWhile isWs =
      (d0 :: ds0) ++ r := by
    rw [List.dropWhile_append_of_pos hwa,
      show ((d0 :: ds0) : List Char) ++ r = d0 :: (ds0 ++ r) from rfl,
      List.dropWhile_cons_of_neg (by simp [digit_not_ws hd0])]
  have hrnd : ∀ c cs, r = c :: cs → c.isDigit = false := by
    intro c cs hc
    cases hdig : c.isDigit
    · rfl
    · exact absurd (digit_word hdig) (by simp [hrd c cs hc])
  have t3 : ((d0 :: ds0) ++ r).takeWhile Char.isDigit = d0 :: ds0 := by
    rw [List.takeWhile_append_of_pos hda]
    rcases hc : r with _ | ⟨c, cs⟩
    · simp
    · rw [List.takeWhile_cons_of_neg (by simp [hrnd c cs hc])]
      simp
  have t4 : ((d0 :: ds0) ++ r).dropWhile Char.isDigit = r := by
    rw [List.dropWhile_append_of_pos hda]
    rcases hc : r with _ | ⟨c, cs⟩
    · rfl
    · rw [List.dropWhile_cons_of_neg (by simp [hrnd c cs hc])]
  rw [limitAt_eq_limitTail, hstrip]
  dsimp only
  unfold limitTail
  rw [t1]
  dsimp only
  rw [t2, t3]
  dsimp only
  rw [t4]
  rcases hc : r with _ | ⟨c, cs⟩
  · rfl
  · dsimp only
    rw [if_neg (by simp [hrd c cs hc])]

theorem no_mid_L {z e' : List Char} (hz : z ≠ [])
    (hf : List.Forall₂ (fun c p => c.toLower = p) (z ++ 'L' :: e') limitTok) :
    False := by
  rw [show limitTok = 'l' :: 'i' :: 'm' :: 'i' :: 't' :: [] from rfl] at hf
  rcases z with _ | ⟨z0, z1⟩
  · exact absurd rfl hz
  rw [List.cons_append] at hf
  obtain ⟨c0, m0, he0, hr0, hf⟩ := forall2_cons_right hf
  injection he0 with he0a he0b
  subst he0b
  rcases z1 with _ | ⟨z2, z3⟩
  · rw [List.nil_append] at hf
    obtain ⟨c1, m1, he1, hr1, _⟩ := forall2_cons_right hf
    injection he1 with he1a _
    rw [← he1a] at hr1
    exact absurd hr1 (by decide)
  rw [List.cons_append] at hf
  obtain ⟨c1, m1, he1, hr1, hf⟩ := forall2_cons_right hf
  injection he1 with he1a he1b
  subst he1b
  rcases z3 with _ | ⟨z4, z5⟩
  · rw [List.nil_append] at hf
    obtain ⟨c2, m2, he2, hr2, _⟩ := forall2_cons_right hf
    injection he2 with he2a _
    rw [← he2a] at hr2
    exact absurd hr2 (by decide)
  rw [List.cons_append] at hf
  obtain ⟨c2, m2, he2, hr2, hf⟩ := forall2_cons_right hf
  injection he2 with he2a he2b
  subst he2b
  rcases z5 with _ | ⟨z6, z7⟩
  · rw [List.nil_append] at hf
    obtain ⟨c3, m3, he3, hr3, _⟩ := forall2_cons_right hf
    injection he3 with he3a _
    rw [← he3a] at hr3
    exact absurd hr3 (by decide)
  rw [List.cons_append] at hf
  obtain ⟨c3, m3, he3, hr3, hf⟩ := forall2_cons_right hf
  injection he3 with he3a he3b
  subst he3b
  rcases z7 with _ | ⟨z8, z9⟩
  · rw [List.nil_append] at hf
    obtain ⟨c4, m4, he4, hr4, _⟩ := forall2_cons_right hf
    injection he4 with he4a _
    rw [← he4a] at hr4
    exact absurd hr4 (by decide)
  rw [List.cons_append] at hf
  obtain ⟨c4, m4, he4, hr4, hf⟩ := forall2_cons_right hf
  injection he4 with he4a he4b
  subst he4b
  have := hf.length_eq
  simp at this

theorem limitAt_none_swap {z t1 t2 : List Char} (hz : z ≠ [])
    (h1 : limitAt (z ++ t1) = none)
    (hx : ∃ b2, t2 = 'L' :: b2) :
    limitAt (z ++ t2) = none := by
  rcases hs : limitAt (z ++ t2) with _ | ⟨n, r⟩
  · rfl
  exfalso
  obtain ⟨m5, wsp, ds, heq, hf, hwne, hwa, hdne, hda, _, hta⟩ := limitAt_decomp hs
  obtain ⟨b2, rfl⟩ := hx
  rcases List.append_eq_append_iff.mp heq with ⟨e, he1, he2⟩ | ⟨e, he1, he2⟩
  · -- m5 = z ++ e and 'L' :: b2 = e ++ (wsp ++ (ds ++ r))
    rcases e with _ | ⟨x, e'⟩
    · -- z = m5; the head of wsp would be 'L', but wsp is whitespace
      rw [List.nil_append] at he2
      rcases wsp with _ | ⟨w0, ws0⟩
      · exact absurd rfl hwne
      rw [List.cons_append] at he2
      injection he2 with he2a _
      have := hwa w0 (by simp)
      rw [← he2a] at this
      exact absurd this (by decide)
    · -- 'L' sits strictly inside the matched token: impossible, the token
      -- `limit` has no character lowering to `l` after its head
      rw [List.cons_append] at he2
      injection he2 with he2a he2b
      rw [he1, ← he2a] at hf
      exact no_mid_L hz hf
  · -- z = m5 ++ e and wsp ++ (ds ++ r) = e ++ 'L' :: b2
    rcases List.append_eq_append_iff.mp he2 with ⟨e2, hf1, hf2⟩ | ⟨e2, hf1, hf2⟩
    · -- e = wsp ++ e2 and ds ++ r = e2 ++ 'L' :: b2
      rcases List.append_eq_append_iff.mp hf2 with ⟨e3, hg1, hg2⟩ | ⟨e3, hg1, hg2⟩
      · -- e2 = ds ++ e3 and r = e3 ++ 'L' :: b2: the successful parse lies
        -- entirely inside z, so the first text admits the same parse
        rcases e3 with _ | ⟨y, e3'⟩
        · rw [List.nil_append] at hg2
          rw [hg2] at hta
          rw [show tokenAfter ('L' :: b2) = !isWordChar 'L' from rfl] at hta
          exact absurd hta (by decide)
        · have hyw : isWordChar y = false := by
            rw [hg2] at hta
            simpa [tokenAfter] using hta
          have hz1 : z = m5 ++ (wsp ++ (ds ++ (y :: e3'))) := by
            rw [he1, hf1, hg1]
          have hparse := limitAt_of_decomp hf hwne hwa hdne hda
            (r := (y :: e3') ++ t1) (by simp [tokenAfter, hyw])
          rw [show m5 ++ (wsp ++ (ds ++ ((y :: e3') ++ t1))) =
              (m5 ++ (wsp ++ (ds ++ (y :: e3')))) ++ t1 from by simp] at hparse
          rw [← hz1] at hparse
          rw [hparse] at h1
          cases h1
      · -- ds = e2 ++ e3 and 'L' :: b2 = e3 ++ r
        rcases e3 with _ | ⟨x, e3'⟩
        · -- r = 'L' :: b2: 'L' is a word character, boundary fails
          rw [List.nil_append] at hg2
          rw [← hg2] at hta
          rw [show tokenAfter ('L' :: b2) = !isWordChar 'L' from rfl] at hta
          exact absurd hta (by decide)
        · -- 'L' inside ds: not a digit
          rw [List.cons_append] at hg2
          injection hg2 with hg2a _
          have : x ∈ ds := by rw [hg1]; simp
          have hdig := hda x this
          rw [← hg2a] at hdig
          exact absurd hdig (by decide)
    · -- wsp = e ++ e2 and 'L' :: b2 = e2 ++ (ds ++ r)
      rcases e2 with _ | ⟨x, e2'⟩
      · -- 'L' heads ds: not a digit
        rw [List.nil_append] at hf2
        rcases ds with _ | ⟨d0, ds0⟩
        · exact absurd rfl hdne
        rw [List.cons_append] at hf2
        injection hf2 with hf2a _
        have := hda d0 (by simp)
        rw [← hf2a] at this
        exact absurd this (by decide)
      · -- 'L' inside wsp: not whitespace
        rw [List.cons_append] at hf2
        injection hf2 with hf2a _
        have : x ∈ wsp := by rw [hf1]; simp
        have hws := hwa x this
        rw [← hf2a] at hws
        exact absurd hws (by decide)

theorem clampF_no_new_match (h : Nat) :
    ∀ (f : Nat) (b : Bool) (l z : List Char), l.length ≤ f → z ≠ [] →
      limitAt (z ++ l) = none → limitAt (z ++ clampF h f b l) = none := by
  intro f
  induction f with
  | zero =>
    intro b l z hf _ h1
    rw [clampF_zero]
    exact h1
  | succ f ih =>
    intro b l z hf hz h1
    rcases l with _ | ⟨c, rest⟩
    · exact h1
    have hr : rest.length ≤ f := by
      simpa using hf
    have hzc : z ++ [c] ≠ [] := by simp
    have h1' : limitAt ((z ++ [c]) ++ rest) = none := by
      rw [List.append_assoc]
      simpa using h1
    cases b
    · rcases hla : limitAt (c :: rest) with _ | ⟨n, r⟩
      · rw [clampF_cons_none h f hla,
          show z ++ c :: clampF h f (isWordChar c) rest =
            (z ++ [c]) ++ clampF h f (isWordChar c) rest from by simp]
        exact ih (isWordChar c) rest (z ++ [c]) hr hzc h1'
      · rw [clampF_cons_some h f hla]
        refine limitAt_none_swap hz h1 ?_
        exact ⟨("IMIT ".toList ++ natToDigits h) ++ clampF h f true r, by
          rw [show limitBlock h = 'L' :: ("IMIT ".toList ++ natToDigits h)
            from rfl]
          rfl⟩
    · rw [clampF_cons_true,
        show z ++ c :: clampF h f (isWordChar c) rest =
          (z ++ [c]) ++ clampF h f (isWordChar c) rest from by simp]
      exact ih (isWordChar c) rest (z ++ [c]) hr hzc h1'

theorem limitAt_block (h : Nat) {y : List Char} (hy : tokenAfter y = true) :
    limitAt (limitBlock h ++ y) = some (h, y) := by
  have hf5 : List.Forall₂ (fun c p => c.toLower = p) "LIMIT".toList limitTok := by
    rw [show "LIMIT".toList = ['L', 'I', 'M', 'I', 'T'] from rfl,
      show limitTok = ['l', 'i', 'm', 'i', 't'] from rfl]
    exact List.Forall₂.cons (by decide) (List.Forall₂.cons (by decide)
      (List.Forall₂.cons (by decide) (List.Forall₂.cons (by decide)
        (List.Forall₂.cons (by decide) List.Forall₂.nil))))
  have hnd : natToDigits h ≠ [] := by
    obtain ⟨c, r, hc, _⟩ := natToDigits_head h
    rw [hc]
    simp
  have hcomp := limitAt_of_decomp hf5 (show ([' '] : List Char) ≠ [] by simp)
    (by decide) hnd (natToDigits_all_digit h) hy
  rw [digitsVal_natToDigits] at hcomp
  rw [show limitBlock h ++ y =
      "LIMIT".toList ++ ([' '] ++ (natToDigits h ++ y)) from by
    rw [show limitBlock h = "LIMIT ".toList ++ natToDigits h from rfl,
      show "LIMIT ".toList = "LIMIT".toList ++ [' '] from rfl]
    simp]
  exact hcomp

theorem clampF_true_head (h f : Nat) {r : List Char}
    (hr : tokenAfter r = true) : tokenAfter (clampF h f true r) = true := by
  rcases f with _ | f
  · rw [clampF_zero]
    exact hr
  · rcases r with _ | ⟨c, cs⟩
    · exact hr
    · rw [clampF_cons_true]
      simpa [tokenAfter] using hr

theorem findLimitW_clampF (h : Nat) :
    ∀ (f : Nat) (b : Bool) (l : List Char), l.length ≤ f →
      findLimitW b (clampF h f b l) = (findLimitW b l).map (fun _ => h) := by
  intro f
  induction f with
  | zero =>
    intro b l hf
    have hl : l = [] := List.length_eq_zero.mp (Nat.le_zero.mp hf)
    subst hl
    rfl
  | succ f ih =>
    intro b l hf
    rcases l with _ | ⟨c, rest⟩
    · rfl
    have hr : rest.length ≤ f := by simpa using hf
    cases b
    · rcases hla : limitAt (c :: rest) with _ | ⟨n, r⟩
      · rw [clampF_cons_none h f hla]
        have hno : limitAt ([c] ++ clampF h f (isWordChar c) rest) = none :=
          clampF_no_new_match h f (isWordChar c) rest [c] hr (by simp)
            (by simpa using hla)
        rw [show [c] ++ clampF h f (isWordChar c) rest =
          c :: clampF h f (isWordChar c) rest from rfl] at hno
        rw [findLimitW_cons_none hno, findLimitW_cons_none hla]
        exact ih (isWordChar c) rest hr
      · rw [clampF_cons_some h f hla, findLimitW_cons_some hla]
        obtain ⟨m5, wsp, ds, heq, hfa, _, _, _, _, _, hta⟩ := limitAt_decomp hla
        have hr2 : tokenAfter (clampF h f true r) = true :=
          clampF_true_head h f hta
        have hbl := limitAt_block h hr2
        have hshape : limitBlock h ++ clampF h f true r =
            'L' :: (("IMIT ".toList ++ natToDigits h) ++ clampF h f true r) := by
          rw [show limitBlock h = 'L' :: ("IMIT ".toList ++ natToDigits h)
            from rfl]
          rfl
        rw [hshape] at hbl
        rw [hshape, findLimitW_cons_some hbl]
        rfl
    · rw [clampF_cons_true, findLimitW_cons_true, findLimitW_cons_true]
      exact ih (isWordChar c) rest hr

theorem findLimitW_clampAll (h : Nat) (l : List Char) :
    findLimitW false (clampAll h l) =
      (findLimitW false l).map (fun _ => h) :=
  findLimitW_clampF h l.length false l (le_refl _)

theorem toNat_ofNat_lower {n : Nat} (h1 : 97 ≤ n) (h2 : n ≤ 122) :
    (Char.ofNat n).toNat = n := by
  have hv : n.isValidChar := Or.inl (by omega)
  simp [Char.ofNat, Char.ofNatAux, hv, Char.toNat, UInt32.toNat]

theorem ws_toNat_le {x : Char} (h : isWs x = true) : x.toNat ≤ 32 := by
  rcases isWs_cases h with rfl | rfl | rfl | rfl | rfl | rfl <;> decide

theorem nonws_toLower {c : Char} (h : isWs c = false) :
    isWs c.toLower = false := by
  rw [char_toLower_def]
  split
  · next hr =>
    cases hlw : isWs (Char.ofNat (c.toNat + 32))
    · rfl
    · exfalso
      have h32 : (Char.ofNat (c.toNat + 32)).toNat = c.toNat + 32 :=
        toNat_ofNat_lower (by omega) (by omega)
      have := ws_toNat_le hlw
      omega
  · exact h

theorem toLower_rparen {c : Char} (h : c.toLower = ')') : c = ')' := by
  rw [char_toLower_def] at h
  split at h
  · next hr =>
    exfalso
    have h32 : (Char.ofNat (c.toNat + 32)).toNat = c.toNat + 32 :=
      toNat_ofNat_lower (by omega) (by omega)
    rw [h] at h32
    have h41 : (')' : Char).toNat = 41 := rfl
    omega
  · exact h

theorem lastNonWs_append (A B : List Char) :
    lastNonWs (A ++ B) = match lastNonWs B with
      | some c => some c
      | none => lastNonWs A := by
  unfold lastNonWs
  rw [List.reverse_append]
  rcases hd : B.reverse.dropWhile isWs with _ | ⟨y, ys⟩
  · have hall : ∀ x ∈ B.reverse, isWs x = true := List.dropWhile_eq_nil_iff.mp hd
    rw [List.dropWhile_append_of_pos hall]
    rfl
  · rw [dropWhile_append_ne (by rw [hd]; simp) A.reverse, hd]
    rfl

theorem lastNonWs_single (a : Char) :
    lastNonWs [a] = if isWs a then none else some a := by
  unfold lastNonWs
  by_cases hw : isWs a
  · simp [hw, List.dropWhile_cons]
  · simp [hw, List.dropWhile_cons]

theorem lastNonWs_cons_eq (a : Char) (Z : List Char) :
    lastNonWs (a :: Z) = match lastNonWs Z with
      | some d => some d
      | none => if isWs a then none else some a := by
  have hap := lastNonWs_append [a] Z
  rw [show [a] ++ Z = a :: Z from rfl] at hap
  rw [hap]
  rcases lastNonWs Z with _ | d
  · rw [lastNonWs_single]
  · rfl

theorem lastNonWs_norm :
    ∀ s : List Char,
      lastNonWs (normWs s) = (lastNonWs s).map Char.toLower ∧
      lastNonWs (normSkip s) = (lastNonWs s).map Char.toLower := by
  intro s
  induction s with
  | nil => exact ⟨rfl, rfl⟩
  | cons c rest ih =>
    have hrhs : lastNonWs (c :: rest) = match lastNonWs rest with
        | some d => some d
        | none => if isWs c then none else some c := lastNonWs_cons_eq c rest
    constructor
    · rw [show normWs (c :: rest) = if isWs c then ' ' :: normSkip rest
          else c.toLower :: normWs rest from rfl]
      by_cases hw : isWs c
      · rw [if_pos hw, lastNonWs_cons_eq, ih.2, hrhs]
        rcases lastNonWs rest with _ | d
        · simp [hw, show isWs ' ' = true from by decide]
        · rfl
      · have hwf : isWs c = false := by simpa using hw
        rw [if_neg hw, lastNonWs_cons_eq, ih.1, hrhs]
        rcases lastNonWs rest with _ | d
        · simp [hwf, nonws_toLower hwf]
        · rfl
    · rw [show normSkip (c :: rest) = if isWs c then normSkip rest
          else c.toLower :: normWs rest from rfl]
      by_cases hw : isWs c
      · rw [if_pos hw, ih.2, hrhs]
        rcases lastNonWs rest with _ | d
        · simp [hw]
        · rfl
      · have hwf : isWs c = false := by simpa using hw
        rw [if_neg hw, lastNonWs_cons_eq, ih.1, hrhs]
        rcases lastNonWs rest with _ | d
        · simp [hwf, nonws_toLower hwf]
        · rfl

theorem lastNonWs_digits {l : List Char} (hne : l ≠ [])
    (hd : ∀ x ∈ l, x.isDigit = true) :
    ∃ c, lastNonWs l = some c ∧ c.isDigit = true := by
  unfold lastNonWs
  rcases hrev : l.reverse with _ | ⟨c, cs⟩
  · rw [List.reverse_eq_nil_iff] at hrev
    exact absurd hrev hne
  · have hcl : c ∈ l := by
      rw [← List.mem_reverse, hrev]
      simp
    have hcd := hd c hcl
    rw [List.dropWhile_cons_of_neg (by simp [digit_not_ws hcd])]
    exact ⟨c, rfl, hcd⟩

theorem lastNonWs_clampF (h : Nat) :
    ∀ (f : Nat) (b : Bool) (l : List Char), l.length ≤ f →
      lastNonWs (clampF h f b l) = lastNonWs l ∨
      (∃ c, lastNonWs (clampF h f b l) = some c ∧ c.isDigit = true) := by
  intro f
  induction f with
  | zero =>
    intro b l hf
    left
    rw [clampF_zero]
  | succ f ih =>
    intro b l hf
    rcases l with _ | ⟨c, rest⟩
    · left
      rfl
    have hr : rest.length ≤ f := by simpa using hf
    cases b
    · rcases hla : limitAt (c :: rest) with _ | ⟨n, r⟩
      · rw [clampF_cons_none h f hla]
        rcases ih (isWordChar c) rest hr with heq | ⟨d, hd2, hdig⟩
        · left
          rw [lastNonWs_cons_eq, lastNonWs_cons_eq, heq]
        · right
          refine ⟨d, ?_, hdig⟩
          rw [lastNonWs_cons_eq, hd2]
      · rw [clampF_cons_some h f hla]
        rw [lastNonWs_append]
        rcases hY : lastNonWs (clampF h f true r) with _ | y
        · right
          have hnd : natToDigits h ≠ [] := by
            obtain ⟨cc, rr, hc, _⟩ := natToDigits_head h
            rw [hc]
            simp
          obtain ⟨dd, hdd, hddd⟩ := lastNonWs_digits hnd (natToDigits_all_digit h)
          rw [show limitBlock h = "LIMIT ".toList ++ natToDigits h from rfl,
            lastNonWs_append, hdd]
          exact ⟨dd, rfl, hddd⟩
        · have hlen := limitAt_rest_length hla
          rcases ih true r (by omega) with heq | ⟨d, hd2, hdig⟩
          · have hry : lastNonWs r = some y := by
              rw [← heq, hY]
            left
            obtain ⟨m5, wsp, ds, heq2, _, _, _, _, _, _, _⟩ := limitAt_decomp hla
            rw [heq2, lastNonWs_append, lastNonWs_append, lastNonWs_append, hry]
          · right
            rw [hY] at hd2
            injection hd2 with hyd
            subst hyd
            exact ⟨y, rfl, hdig⟩
    · rw [clampF_cons_true]
      rcases ih (isWordChar c) rest hr with heq | ⟨d, hd2, hdig⟩
      · left
        rw [lastNonWs_cons_eq, lastNonWs_cons_eq, heq]
      · right
        refine ⟨d, ?_, hdig⟩
        rw [lastNonWs_cons_eq, hd2]

theorem lastNonWs_clampAll_ne {s : List Char} (h : Nat)
    (hs : lastNonWs (normWs s) ≠ some ')') :
    lastNonWs (normWs (clampAll h s)) ≠ some ')' := by
  intro hcon
  have h1 := (lastNonWs_norm (clampAll h s)).1
  rw [h1] at hcon
  rcases hx : lastNonWs (clampAll h s) with _ | x
  · rw [hx] at hcon
    cases hcon
  · rw [hx] at hcon
    simp at hcon
    have hxr : x = ')' := toLower_rparen hcon
    subst hxr
    rcases lastNonWs_clampF h s.length false s (le_refl _) with heq | ⟨d, hd2, hdig⟩
    · rw [show clampAll h s = clampF h s.length false s from rfl, heq] at hx
      have h2 := (lastNonWs_norm s).1
      rw [hx, show (some ')').map Char.toLower = (some ')' : Option Char)
        from by decide] at h2
      exact hs h2
    · rw [show clampAll h s = clampF h s.length false s from rfl, hd2] at hx
      injection hx with hxx
      rw [hxx] at hdig
      exact absurd hdig (by decide)

theorem limDfa_le {q : Nat} (c : Char) (hq : q ≤ 7) : limDfa q c ≤ 7 := by
  unfold limDfa
  split
  · omega
  · next h7 =>
    split
    · omega
    · split <;> omega

theorem contains_step (q : Nat) (hq : q ≤ 7) (c : Char) (l : List Char) :
    containsSeq limPat (limPref q ++ c :: l) =
      containsSeq limPat (limPref (limDfa q c) ++ l) := by
  by_cases h7 : q = 7
  · subst h7
    rw [show limDfa 7 c = 7 from rfl, show limPref 7 = limPat from rfl]
    rw [containsSeq_of_isPrefOf (isPrefOf_append_self limPat (c :: l)),
      containsSeq_of_isPrefOf (isPrefOf_append_self limPat l)]
  · have h6 : q ≤ 6 := by omega
    by_cases hadv : c = patAt q
    · subst hadv
      rw [show limDfa q (patAt q) = q + 1 from by
        unfold limDfa
        rw [if_neg h7, if_pos rfl]]
      interval_cases q <;> rfl
    · by_cases hsp : c = ' '
      · subst hsp
        rw [show limDfa q ' ' = 1 from by
          unfold limDfa
          rw [if_neg h7, if_neg hadv, if_pos rfl]]
        interval_cases q <;>
          first
            | exact absurd rfl hadv
            | simp [containsSeq, isPrefOf, limPat, limPref]
      · rw [show limDfa q c = 0 from by
          unfold limDfa
          rw [if_neg h7, if_neg hadv, if_neg hsp]]
        interval_cases q <;>
          (simp only [patAt] at hadv;
           simp [containsSeq, isPrefOf, limPat, limPref,
             Ne.symm hadv, Ne.symm hsp])

theorem nrmRun_ws_false {c : Char} (hws : isWs c = true) (q : Nat)
    (rest : List Char) :
    nrmRun false q (c :: rest) = nrmRun true (limDfa q ' ') rest := by
  rw [nrmRun, if_pos hws]
  simp

theorem nrmRun_ws_true {c : Char} (hws : isWs c = true) (q : Nat)
    (rest : List Char) :
    nrmRun true q (c :: rest) = nrmRun true q rest := by
  rw [nrmRun, if_pos hws]
  simp

theorem nrmRun_nws (sk : Bool) {c : Char} (hws : isWs c = false) (q : Nat)
    (rest : List Char) :
    nrmRun sk q (c :: rest) = nrmRun false (limDfa q c.toLower) rest := by
  rw [nrmRun, if_neg (by simp [hws])]

theorem nrmRun_contains :
    ∀ (s : List Char) (q : Nat), q ≤ 7 →
      (((nrmRun false q s).2 = 7) ↔
        containsSeq limPat (limPref q ++ normWs s) = true) ∧
      (((nrmRun true q s).2 = 7) ↔
        containsSeq limPat (limPref q ++ normSkip s) = true) := by
  intro s
  induction s with
  | nil =>
    intro q hq
    have base : (q = 7) ↔ containsSeq limPat (limPref q ++ []) = true := by
      interval_cases q <;> decide
    exact ⟨base, base⟩
  | cons c rest ih =>
    intro q hq
    constructor
    · by_cases hwc : isWs c
      · rw [nrmRun_ws_false hwc]
        rw [show normWs (c :: rest) = ' ' :: normSkip rest from by
          rw [normWs, if_pos hwc]]
        rw [contains_step q hq ' ' (normSkip rest)]
        exact (ih (limDfa q ' ') (limDfa_le ' ' hq)).2
      · have hwf : isWs c = false := by simpa using hwc
        rw [nrmRun_nws false hwf]
        rw [show normWs (c :: rest) = c.toLower :: normWs rest from by
          rw [normWs, if_neg hwc]]
        rw [contains_step q hq c.toLower (normWs rest)]
        exact (ih (limDfa q c.toLower) (limDfa_le _ hq)).1
    · by_cases hwc : isWs c
      · rw [nrmRun_ws_true hwc]
        rw [show normSkip (c :: rest) = normSkip rest from by
          rw [normSkip, if_pos hwc]]
        exact (ih q hq).2
      · have hwf : isWs c = false := by simpa using hwc
        rw [nrmRun_nws true hwf]
        rw [show normSkip (c :: rest) = c.toLower :: normWs rest from by
          rw [normSkip, if_neg hwc]]
        rw [contains_step q hq c.toLower (normWs rest)]
        exact (ih (limDfa q c.toLower) (limDfa_le _ hq)).1

theorem contains_nrm (s : List Char) :
    containsSeq " limit ".toList (normWs s) = true ↔
      (nrmRun false 0 s).2 = 7 := by
  have hmain := (nrmRun_contains s 0 (by omega)).1
  rw [show limPref 0 ++ normWs s = normWs s from by
    rw [show limPref 0 = [] from rfl, List.nil_append]] at hmain
  rw [show (" limit ".toList : List Char) = limPat from rfl]
  exact hmain.symm

theorem nrmRun_append :
    ∀ (A B : List Char) (sk : Bool) (q : Nat),
      nrmRun sk q (A ++ B) = nrmRun (nrmRun sk q A).1 (nrmRun sk q A).2 B := by
  intro A
  induction A with
  | nil =>
    intro B sk q
    rfl
  | cons c A ih =>
    intro B sk q
    by_cases hwc : isWs c
    · cases sk
      · rw [show (c :: A) ++ B = c :: (A ++ B) from rfl,
          nrmRun_ws_false hwc, nrmRun_ws_false hwc, ih]
      · rw [show (c :: A) ++ B = c :: (A ++ B) from rfl,
          nrmRun_ws_true hwc, nrmRun_ws_true hwc, ih]
    · have hwf : isWs c = false := by simpa using hwc
      rw [show (c :: A) ++ B = c :: (A ++ B) from rfl,
        nrmRun_nws sk hwf, nrmRun_nws sk hwf, ih]

theorem forall2_LIMIT :
    List.Forall₂ (fun c p => c.toLower = p) "LIMIT".toList limitTok := by
  rw [show "LIMIT".toList = ['L', 'I', 'M', 'I', 'T'] from rfl,
    show limitTok = ['l', 'i', 'm', 'i', 't'] from rfl]
  exact .cons (by decide) (.cons (by decide) (.cons (by decide)
    (.cons (by decide) (.cons (by decide) .nil))))

theorem nrmRun_token {m5 : List Char}
    (hf : List.Forall₂ (fun c p => c.toLower = p) m5 limitTok)
    (sk : Bool) (q : Nat) :
    nrmRun sk q m5 =
      (false,
        limDfa (limDfa (limDfa (limDfa (limDfa q 'l') 'i') 'm') 'i') 't') := by
  rw [show limitTok = 'l' :: 'i' :: 'm' :: 'i' :: 't' :: [] from rfl] at hf
  obtain ⟨c1, m1, he1, hr1, hf⟩ := forall2_cons_right hf
  obtain ⟨c2, m2, he2, hr2, hf⟩ := forall2_cons_right hf
  obtain ⟨c3, m3, he3, hr3, hf⟩ := forall2_cons_right hf
  obtain ⟨c4, m4, he4, hr4, hf⟩ := forall2_cons_right hf
  obtain ⟨c5, m6, he5, hr5, hf⟩ := forall2_cons_right hf
  cases hf
  subst he1 he2 he3 he4 he5
  have hw1 : isWs c1 = false := word_not_ws (toLower_wordChar (by rw [hr1]; decide))
  have hw2 : isWs c2 = false := word_not_ws (toLower_wordChar (by rw [hr2]; decide))
  have hw3 : isWs c3 = false := word_not_ws (toLower_wordChar (by rw [hr3]; decide))
  have hw4 : isWs c4 = false := word_not_ws (toLower_wordChar (by rw [hr4]; decide))
  have hw5 : isWs c5 = false := word_not_ws (toLower_wordChar (by rw [hr5]; decide))
  rw [nrmRun_nws sk hw1, hr1, nrmRun_nws false hw2, hr2,
    nrmRun_nws false hw3, hr3, nrmRun_nws false hw4, hr4,
    nrmRun_nws false hw5, hr5]
  rfl

theorem nrmRun_wsrun {wsp : List Char} (hwa : ∀ x ∈ wsp, isWs x = true) :
    ∀ q, nrmRun true q wsp = (true, q) := by
  induction wsp with
  | nil =>
    intro q
    rfl
  | cons w ws ih =>
    intro q
    rw [nrmRun_ws_true (hwa w (by simp))]
    exact ih (fun x hx => hwa x (by simp [hx])) q

theorem nrmRun_wsrun_false {wsp : List Char} (hne : wsp ≠ [])
    (hwa : ∀ x ∈ wsp, isWs x = true) (q : Nat) :
    nrmRun false q wsp = (true, limDfa q ' ') := by
  rcases wsp with _ | ⟨w, ws⟩
  · exact absurd rfl hne
  rw [nrmRun_ws_false (hwa w (by simp))]
  exact nrmRun_wsrun (fun x hx => hwa x (by simp [hx])) (limDfa q ' ')

theorem patAt_not_digit (q : Nat) : (patAt q).isDigit = false := by
  rcases q with _ | _ | _ | _ | _ | _ | q <;> rfl

theorem limDfa_digit {d : Char} (hd : d.isDigit = true) (q : Nat) :
    limDfa q d = if q = 7 then 7 else 0 := by
  by_cases h7 : q = 7
  · unfold limDfa
    rw [if_pos h7, if_pos h7]
  · have hne1 : ¬(d = patAt q) := by
      intro he
      rw [he, patAt_not_digit] at hd
      cases hd
    have hne2 : ¬(d = ' ') := by
      intro he
      rw [he] at hd
      exact absurd hd (by decide)
    unfold limDfa
    rw [if_neg h7, if_neg hne1, if_neg hne2, if_neg h7]

theorem nrmRun_digits_zero :
    ∀ (ds : List Char), (∀ x ∈ ds, x.isDigit = true) →
      ∀ q, (q = 0 ∨ q = 7) → nrmRun false q ds = (false, q) := by
  intro ds
  induction ds with
  | nil =>
    intro _ q _
    rfl
  | cons d ds ih =>
    intro hda q hq
    have hd := hda d (by simp)
    rcases hq with rfl | rfl
    · rw [nrmRun_nws false (digit_not_ws hd), digit_toLower hd, limDfa_digit hd,
        if_neg (by omega)]
      exact ih (fun x hx => hda x (by simp [hx])) 0 (Or.inl rfl)
    · rw [nrmRun_nws false (digit_not_ws hd), digit_toLower hd, limDfa_digit hd,
        if_pos rfl]
      exact ih (fun x hx => hda x (by simp [hx])) 7 (Or.inr rfl)

theorem nrmRun_digits {ds : List Char} (hne : ds ≠ [])
    (hda : ∀ x ∈ ds, x.isDigit = true) (sk : Bool) (q : Nat) :
    nrmRun sk q ds = (false, if q = 7 then 7 else 0) := by
  rcases ds with _ | ⟨d, ds⟩
  · exact absurd rfl hne
  have hd := hda d (by simp)
  rw [nrmRun_nws sk (digit_not_ws hd), digit_toLower hd, limDfa_digit hd q]
  by_cases h7 : q = 7
  · rw [if_pos h7]
    exact nrmRun_digits_zero ds (fun x hx => hda x (by simp [hx])) 7 (Or.inr rfl)
  · rw [if_neg h7]
    exact nrmRun_digits_zero ds (fun x hx => hda x (by simp [hx])) 0 (Or.inl rfl)

theorem nrmRun_span {m5 wsp ds : List Char}
    (hf : List.Forall₂ (fun c p => c.toLower = p) m5 limitTok)
    (hwne : wsp ≠ []) (hwa : ∀ x ∈ wsp, isWs x = true)
    (hdne : ds ≠ []) (hda : ∀ x ∈ ds, x.isDigit = true)
    (sk : Bool) (q : Nat) :
    nrmRun sk q (m5 ++ (wsp ++ ds)) =
      (false,
        if limDfa (limDfa (limDfa (limDfa (limDfa (limDfa q 'l') 'i') 'm')
          'i') 't') ' ' = 7 then 7 else 0) := by
  rw [nrmRun_append, nrmRun_token hf]
  dsimp only
  rw [nrmRun_append, nrmRun_wsrun_false hwne hwa]
  dsimp only
  rw [nrmRun_digits hdne hda]

theorem nrmRun_match_block (h : Nat) {m5 wsp ds : List Char}
    (hf : List.Forall₂ (fun c p => c.toLower = p) m5 limitTok)
    (hwne : wsp ≠ []) (hwa : ∀ x ∈ wsp, isWs x = true)
    (hdne : ds ≠ []) (hda : ∀ x ∈ ds, x.isDigit = true)
    (sk : Bool) (q : Nat) :
    nrmRun sk q (m5 ++ (wsp ++ ds)) = nrmRun sk q (limitBlock h) := by
  have hnd : natToDigits h ≠ [] := by
    obtain ⟨c, r, hc, _⟩ := natToDigits_head h
    rw [hc]
    simp
  rw [show limitBlock h = "LIMIT".toList ++ ([' '] ++ natToDigits h) from by
    rw [show limitBlock h = "LIMIT ".toList ++ natToDigits h from rfl,
      show "LIMIT ".toList = "LIMIT".toList ++ [' '] from rfl]
    simp]
  rw [nrmRun_span hf hwne hwa hdne hda,
    nrmRun_span forall2_LIMIT (by simp) (by decide) hnd
      (natToDigits_all_digit h)]

theorem nrmRun_copy_step {c : Char} {X Y : List Char}
    (hXY : ∀ (sk' : Bool) (q' : Nat), nrmRun sk' q' X = nrmRun sk' q' Y)
    (sk : Bool) (q : Nat) :
    nrmRun sk q (c :: X) = nrmRun sk q (c :: Y) := by
  by_cases hwc : isWs c
  · cases sk
    · rw [nrmRun_ws_false hwc, nrmRun_ws_false hwc]
      exact hXY _ _
    · rw [nrmRun_ws_true hwc, nrmRun_ws_true hwc]
      exact hXY _ _
  · have hwf : isWs c = false := by simpa using hwc
    rw [nrmRun_nws sk hwf, nrmRun_nws sk hwf]
    exact hXY _ _

theorem nrmRun_clampF (h : Nat) :
    ∀ (f : Nat) (b sk : Bool) (q : Nat) (s : List Char), s.length ≤ f →
      nrmRun sk q (clampF h f b s) = nrmRun sk q s := by
  intro f
  induction f with
  | zero =>
    intro b sk q s hf
    rw [clampF_zero]
  | succ f ih =>
    intro b sk q s hf
    rcases s with _ | ⟨c, rest⟩
    · rfl
    have hr : rest.length ≤ f := by simpa using hf
    cases b
    · rcases hla : limitAt (c :: rest) with _ | ⟨n, r⟩
      · rw [clampF_cons_none h f hla]
        exact nrmRun_copy_step
          (fun sk' q' => ih (isWordChar c) sk' q' rest hr) sk q
      · rw [clampF_cons_some h f hla]
        obtain ⟨m5, wsp, ds, heq, hfa, hwne, hwa, hdne, hda, _, _⟩ :=
          limitAt_decomp hla
        have hlen := limitAt_rest_length hla
        rw [heq, show m5 ++ (wsp ++ (ds ++ r)) = (m5 ++ (wsp ++ ds)) ++ r
          from by simp]
        rw [nrmRun_append, nrmRun_append,
          nrmRun_match_block h hfa hwne hwa hdne hda]
        exact ih true (nrmRun sk q (limitBlock h)).1
          (nrmRun sk q (limitBlock h)).2 r (by omega)
    · rw [clampF_cons_true]
      exact nrmRun_copy_step
        (fun sk' q' => ih (isWordChar c) sk' q' rest hr) sk q

theorem clampAll_hasLimit {s : List Char} (h : Nat)
    (hs : hasLimit s = true) : hasLimit (clampAll h s) = true := by
  unfold hasLimit at hs ⊢
  simp only [Bool.and_eq_true, Bool.not_eq_true', decide_eq_false_iff_not]
    at hs ⊢
  obtain ⟨hc, hrp⟩ := hs
  constructor
  · rw [contains_nrm] at hc ⊢
    rw [show clampAll h s = clampF h s.length false s from rfl,
      nrmRun_clampF h s.length false false 0 s (le_refl _)]
    exact hc
  · exact lastNonWs_clampAll_ne h hrp

/-- Claim C7 (amended): `validate` is idempotent on every accepted input
whose sanitized text is left unchanged by the preprocessing trim and still
passes the multi-statement check: re-validating such a sanitized text
succeeds and returns the very same text with no further warnings.  This
covers clamped outputs: clamping rewrites every matched clause to
`LIMIT hardMaxRows`, preserves the `has_limit` detection, and leaves the
first matched value equal to `hardMaxRows`, so the second run changes
nothing.  (The two excluded situations are real: the counterexample shows a
preprocessing-sensitive output and an output that re-validation rejects
outright.) -/
theorem claim_C7_amended {x : List Char} {a : Bool} {d h : Nat}
    {t : List Char} {w : List (List Char)}
    (hok : sanitizeSql x a d h = .ok (t, w))
    (hpre : preprocess t = t)
    (hmt : multiStmt t = false) :
    sanitizeSql t a d h = .ok (t, []) := by
  obtain ⟨hm, hs, hcase⟩ := sanitizeSql_ok_inv hok
  rcases hcase with ⟨hl, hsub⟩ | ⟨hl, hsub⟩
  · rcases hsub with ⟨n, hfl, hn, rfl, rfl⟩ | ⟨hno, rfl, rfl⟩
    · have hsel2 :
          (!a && !selectOnly (clampAll h (preprocess x))) = false := by
        cases a
        · have hp : selectOnly (preprocess x) = true := by simpa using hs
          simp [clampAll_selectOnly h hp]
        · simp
      have hlt : hasLimit (clampAll h (preprocess x)) = true :=
        clampAll_hasLimit h hl
      have hfl2 : findLimitW false (clampAll h (preprocess x)) = some h := by
        rw [findLimitW_clampAll, hfl]
        rfl
      simp [sanitizeSql, hpre, hmt, hsel2, hlt, hfl2, Nat.lt_irrefl]
    · rcases hfl2 : findLimitW false (preprocess x) with _ | n
      · simp [sanitizeSql, hpre, hm, hs, hl, hfl2]
      · have hn2 : ¬h < n := by
          have := hno n hfl2
          omega
        simp [sanitizeSql, hpre, hm, hs, hl, hfl2, hn2]
  · rcases hsub with ⟨n, hfl, hn, rfl, rfl⟩ | ⟨hno, rfl, rfl⟩
    · have hsel2 :
          (!a && !selectOnly (clampAll h (appendLimit (preprocess x) d)))
            = false := by
        cases a
        · have hp : selectOnly (preprocess x) = true := by simpa using hs
          simp [clampAll_selectOnly h (selectOnly_appendLimit hp d)]
        · simp
      have hlt : hasLimit (clampAll h (appendLimit (preprocess x) d)) = true :=
        clampAll_hasLimit h (hasLimit_appendLimit (preprocess x) d)
      have hfl2 :
          findLimitW false (clampAll h (appendLimit (preprocess x) d))
            = some h := by
        rw [findLimitW_clampAll, hfl]
        rfl
      simp [sanitizeSql, hpre, hmt, hsel2, hlt, hfl2, Nat.lt_irrefl]
    · have hlt : hasLimit (appendLimit (preprocess x) d) = true :=
        hasLimit_appendLimit _ d
      have hsel2 : (!a && !selectOnly (appendLimit (preprocess x) d)) = false := by
        cases a
        · have hp : selectOnly (preprocess x) = true := by simpa using hs
          simp [selectOnly_appendLimit hp d]
        · simp
      rcases hfl2 : findLimitW false (appendLimit (preprocess x) d) with _ | n
      · simp [sanitizeSql, hpre, hmt, hsel2, hlt, hfl2]
      · have hn2 : ¬h < n := by
          have := hno n hfl2
          omega
        simp [sanitizeSql, hpre, hmt, hsel2, hlt, hfl2, hn2]

/-- Witness for the amended C7: re-validating the sanitized text of
`SELECT * FROM t` returns it unchanged, and re-validating the clamped
sanitized text of `SELECT * FROM t LIMIT 5000` (namely
`SELECT * FROM t LIMIT 1000`) also returns it unchanged. -/
theorem claim_C7_witness :
    sanitizeSql "SELECT * FROM t".toList false 100 1000 =
      .ok ("SELECT * FROM t LIMIT 100".toList, ["LIMIT 100 added.".toList]) ∧
    sanitizeSql "SELECT * FROM t LIMIT 100".toList false 100 1000 =
      .ok ("SELECT * FROM t LIMIT 100".toList, []) ∧
    sanitizeSql "SELECT * FROM t LIMIT 1000".toList false 100 1000 =
      .ok ("SELECT * FROM t LIMIT 1000".toList, []) := by
  refine ⟨by decide, ?_, ?_⟩
  · exact claim_C7_amended (x := "SELECT * FROM t".toList) (a := false)
      (d := 100) (h := 1000) (w := ["LIMIT 100 added.".toList])
      (by decide) (by decide) (by decide)
  · exact claim_C7_amended (x := "SELECT * FROM t LIMIT 5000".toList)
      (a := false) (d := 100) (h := 1000)
      (w := ["LIMIT clamped to 1000.".toList])
      (by decide) (by decide) (by decide)
